import Mathlib

/-!
# Suffix tree (`structure/suffixtree/suffixtree.go`)

A shallow embedding of the Go package `suffixtree` (`NewNode`, `NewSuffixTree`, `Build`,
`walkDown`, `Contains`) and a verification of its documented behaviour.  The diagnostic
printer `DFS` has no effect on the tree and is left out.

## Memory model

The Go code works on a pointer graph, so the embedding carries an explicit heap:

* a `*Node` is an `Option Nat` (`none` is `nil`), an address into `SuffixTree.nodes`;
  `NewNode` allocates at the end of that list, the root lives at address `0`;
* a `*int` is an `IntPtr`.  The variables `rootEnd`, `end`, `splitEnd` and the target of
  `new(int)` are written once, before their address is stored in a node, so a pointer to
  one of them is `IntPtr.cell v` with `v` its value.  The remaining one is the loop variable
  `i` of `Build`, whose address becomes the `start` of every leaf (`NewNode(&i, &end)`):
  `IntPtr.loopI k` is `&i` taken in iteration `k`.

How `&i` reads afterwards is fixed by the Go language version of the module.  From Go 1.22
on every iteration of a `for` statement has its own `i`, which keeps the value `k` of the
iteration that took its address (`LoopVar.perIteration`).  Up to Go 1.21 the loop has a
single `i`, so `*start` follows the loop counter and is `len(text)` once `Build` has
returned (`LoopVar.shared`).  The module file that declares the version is not among the
sources, so the embedding takes the meaning of the loop variable as a parameter; what does
not depend on it is proved for both values.

## Control

`Build` is a small-step machine (`BuildState.step`) whose program points are the two loop
heads of the source; `Build` runs it for a bounded number of steps and `Contains` runs for a
bounded number of iterations of its loop.  More fuel never changes an outcome
(`Build_mono`, `Contains_mono`).  The run-time panics of Go are the constructors of `Fault`.

## Invariants

What holds in every state of every run of `Build` is proved from an invariant of the machine
(`Shape`, together with `Keyed` for a per-iteration loop variable) that every step keeps
(`Inv.reach`).  The body of the inner loop is split into the choice of a branch and its
execution (`innerBranch`, `runBranch`), and `innerBody_eq_branch` shows that the two together
are the body; that a branch of the source is not executed is then a statement about
`innerBranch`.  Paths in the tree are the relation `Path`.
-/

namespace suffixtree

/-- Meaning of the loop variable of a three-clause `for` statement. -/
inductive LoopVar where
  /-- Go up to 1.21: one variable per loop. -/
  | shared
  /-- Go 1.22 and later: one variable per iteration. -/
  | perIteration
deriving DecidableEq

/-- A run-time panic of the Go program. -/
inductive Fault where
  /-- Invalid memory address or nil pointer dereference. -/
  | nilDeref
  /-- Index out of range (`st.text[k]`). -/
  | indexOutOfRange
  /-- Slice bounds out of range (`st.text[a:b]`). -/
  | sliceOutOfRange
deriving DecidableEq

/-- A value of Go type `*int`. -/
inductive IntPtr where
  /-- The nil pointer. -/
  | null
  /-- Address of the loop variable `i` of `Build`, taken in iteration `iter`. -/
  | loopI (iter : Int)
  /-- Address of a variable holding `v` that is not written after its address is taken. -/
  | cell (v : Int)
deriving DecidableEq

/-- The Go struct `Node`; `children` is the map `map[byte]*Node` as an association list
with distinct keys, its values are addresses of nodes. -/
structure Node where
  children : List (UInt8 × Nat)
  suffixLink : Option Nat
  start : IntPtr
  end_ : IntPtr
  id : Int
deriving DecidableEq

/-- The Go struct `SuffixTree` together with the part of the heap reachable from it:
`nodes` holds the allocated nodes (a `*Node` is an index into it) and `loopI` is the
content of the loop variable `i` of `Build` (read through `IntPtr.loopI` under
`LoopVar.shared`). -/
structure SuffixTree where
  root : Option Nat
  text : List UInt8
  nodeCount : Int
  nodes : List Node
  loopI : Int
deriving DecidableEq

/-- The sentinel byte `'$'`. -/
def sentinel : UInt8 := 36

/-- The bytes of an ASCII string literal. -/
def ascii (s : String) : List UInt8 := s.toList.map (fun c => c.toNat.toUInt8)

/-- Load through a `*int`: `*p`, with `curI` the current content of the loop variable. -/
def IntPtr.load (sem : LoopVar) (curI : Int) : IntPtr → Except Fault Int
  | .null => .error .nilDeref
  | .loopI k =>
    match sem with
    | .shared => .ok curI
    | .perIteration => .ok k
  | .cell v => .ok v

/-- Lookup `m[c]` in a children map, with the `exists` flag as `Option`. -/
def mapGet (m : List (UInt8 × Nat)) (c : UInt8) : Option Nat :=
  match m with
  | [] => none
  | (k, v) :: rest => if k = c then some v else mapGet rest c

/-- Assignment `m[c] = v` in a children map. -/
def mapSet (m : List (UInt8 × Nat)) (c : UInt8) (v : Nat) : List (UInt8 × Nat) :=
  match m with
  | [] => [(c, v)]
  | (k, w) :: rest => if k = c then (k, v) :: rest else (k, w) :: mapSet rest c v

/-- Indexing `text[k]` of a Go string. -/
def byteAt (text : List UInt8) (k : Int) : Except Fault UInt8 :=
  if 0 ≤ k then
    match text[k.toNat]? with
    | some b => .ok b
    | none => .error .indexOutOfRange
  else .error .indexOutOfRange

/-- Slicing `text[a:b]` of a Go string. -/
def sliceOf (text : List UInt8) (a b : Int) : Except Fault (List UInt8) :=
  if 0 ≤ a ∧ a ≤ b ∧ b ≤ text.length then
    .ok ((text.drop a.toNat).take (b.toNat - a.toNat))
  else .error .sliceOutOfRange

/-- Dereference of a `*Node`. -/
def getNode (nodes : List Node) (p : Option Nat) : Except Fault Node :=
  match p with
  | none => .error .nilDeref
  | some a =>
    match nodes[a]? with
    | some nd => .ok nd
    | none => .error .nilDeref

/-- The Go function `NewNode`. -/
def NewNode (start end_ : IntPtr) : Node :=
  { children := [], suffixLink := none, start := start, end_ := end_, id := -1 }

/-- The Go function `NewSuffixTree`: the root is the only allocated node. -/
def NewSuffixTree (text : List UInt8) : SuffixTree :=
  { root := some 0
    text := text ++ [sentinel]
    nodeCount := 0
    nodes := [NewNode .null .null]
    loopI := 0 }

/-- Program points of `Build`. -/
inductive Pc where
  /-- At the condition `i < n` of the outer loop. -/
  | outer
  /-- At the condition `remainingSuffixCount > 0` of the inner loop. -/
  | inner
  /-- After the outer loop: `Build` has returned. -/
  | done
deriving DecidableEq

/-- The tree and the local variables of `Build`; the loop variable `i` is `st.loopI`. -/
structure BuildState where
  st : SuffixTree
  activeNode : Option Nat
  activeEdge : Int
  activeLength : Int
  remainingSuffixCount : Int
  lastNewNode : Option Nat
  pc : Pc
deriving DecidableEq

/-- The current value of the loop variable `i`. -/
def BuildState.i (s : BuildState) : Int := s.st.loopI

/-- Replace the node stored at address `a`. -/
def BuildState.setNode (s : BuildState) (a : Nat) (nd : Node) : BuildState :=
  { s with st := { s.st with nodes := s.st.nodes.set a nd } }

/-- Allocate a node, returning its address. -/
def BuildState.alloc (s : BuildState) (nd : Node) : Nat × BuildState :=
  (s.st.nodes.length, { s with st := { s.st with nodes := s.st.nodes ++ [nd] } })

/-- The statement `st.nodeCount++`. -/
def BuildState.incNodeCount (s : BuildState) : BuildState :=
  { s with st := { s.st with nodeCount := s.st.nodeCount + 1 } }

/-- The statement `p.suffixLink = q` for a non-nil `p` (address `a`). -/
def BuildState.setSuffixLink (s : BuildState) (a : Nat) (q : Option Nat) :
    Except Fault BuildState := do
  let nd ← getNode s.st.nodes (some a)
  pure (s.setNode a { nd with suffixLink := q })

/-- The statement `p.children[c] = q` for a non-nil `p` (address `a`). -/
def BuildState.setChild (s : BuildState) (a : Nat) (c : UInt8) (q : Nat) :
    Except Fault BuildState := do
  let nd ← getNode s.st.nodes (some a)
  pure (s.setNode a { nd with children := mapSet nd.children c q })

/-- The Go method `walkDown`; the in/out parameters are the fields of the state. -/
def walkDown (sem : LoopVar) (s : BuildState) : Except Fault (BuildState × Bool) := do
  let an ← getNode s.st.nodes s.activeNode
  let c ← byteAt s.st.text s.activeEdge
  let node := mapGet an.children c
  let nd ← getNode s.st.nodes node
  let e ← nd.end_.load sem s.i
  let b ← nd.start.load sem s.i
  let length := e - b + 1
  if s.activeLength < length then
    pure (s, false)
  else
    pure ({ s with activeEdge := s.activeEdge + length
                   activeLength := s.activeLength - length
                   activeNode := node }, true)

/-- Lines 105-111 of `Build`: the end of an iteration of the inner loop. -/
def advance (s : BuildState) : Except Fault BuildState := do
  let s := { s with remainingSuffixCount := s.remainingSuffixCount - 1 }
  if s.activeNode = s.st.root ∧ s.activeLength > 0 then
    pure { s with activeLength := s.activeLength - 1
                  activeEdge := s.i - s.remainingSuffixCount + 1 }
  else if s.activeNode ≠ s.st.root then
    let an ← getNode s.st.nodes s.activeNode
    pure { s with activeNode := an.suffixLink }
  else
    pure s

/-- The statement `if lastNewNode != nil { lastNewNode.suffixLink = activeNode;
lastNewNode = nil }` (lines 68-71 and the body of lines 79-82). -/
def BuildState.linkPending (s : BuildState) : Except Fault BuildState :=
  match s.lastNewNode with
  | some l => do
    let s ← s.setSuffixLink l s.activeNode
    pure { s with lastNewNode := none }
  | none => pure s

/-- Lines 64-71 of `Build`: the active node (at address `a`) has no child for the active
byte `c`. -/
def addLeaf (s : BuildState) (a : Nat) (c : UInt8) : Except Fault BuildState := do
  let s := s.incNodeCount
  let (leaf, s) := s.alloc (NewNode (.loopI s.i) (.cell s.i))
  let s ← s.setChild a c leaf
  s.linkPending

/-- Lines 87-102 of `Build`: split the edge to `next` (at address `nx`). -/
def splitEdge (sem : LoopVar) (s : BuildState) (a : Nat) (c : UInt8) (nx : Nat) :
    Except Fault BuildState := do
  let next ← getNode s.st.nodes (some nx)
  let b ← next.start.load sem s.i
  let splitEnd := b + s.activeLength - 1
  let (split, s) := s.alloc (NewNode next.start (.cell splitEnd))
  let s := s.incNodeCount
  let s ← s.setChild a c split
  let ci ← byteAt s.st.text s.i
  let (leaf, s) := s.alloc (NewNode (.loopI s.i) (.cell s.i))
  let s ← s.setChild split ci leaf
  let s := s.incNodeCount
  let next ← getNode s.st.nodes (some nx)
  let s := s.setNode nx { next with start := .cell (splitEnd + 1) }
  let cn ← byteAt s.st.text (splitEnd + 1)
  let s ← s.setChild split cn nx
  match s.lastNewNode with
  | some l =>
    let s ← s.setSuffixLink l (some split)
    pure { s with lastNewNode := some split }
  | none => pure { s with lastNewNode := some split }

/-- How an iteration of the inner loop ends. -/
inductive Flow where
  /-- The iteration reached the loop head again (end of body or `continue`). -/
  | next
  /-- The iteration executed `break`. -/
  | brk
deriving DecidableEq

/-- One iteration of the inner loop of `Build` (lines 59-111). -/
def innerBody (sem : LoopVar) (s : BuildState) : Except Fault (BuildState × Flow) := do
  let s := if s.activeLength = 0 then { s with activeEdge := s.i } else s
  let an ← getNode s.st.nodes s.activeNode
  let c ← byteAt s.st.text s.activeEdge
  match s.activeNode, mapGet an.children c with
  | none, _ => .error .nilDeref
  | some a, none =>
    let s ← addLeaf s a c
    let s ← advance s
    pure (s, .next)
  | some a, some nx =>
    let (s, walked) ← walkDown sem s
    if walked then
      pure (s, .next)
    else
      let next ← getNode s.st.nodes (some nx)
      let b ← next.start.load sem s.i
      let x ← byteAt s.st.text (b + s.activeLength)
      let ci ← byteAt s.st.text s.i
      if x = ci then
        let s ← if s.activeNode ≠ s.st.root then s.linkPending else pure s
        pure ({ s with activeLength := s.activeLength + 1 }, .brk)
      else
        let s ← splitEdge sem s a c nx
        let s ← advance s
        pure (s, .next)

/-- The statement `i++` that ends an iteration of the outer loop. -/
def BuildState.nextPhase (s : BuildState) : BuildState :=
  { s with st := { s.st with loopI := s.st.loopI + 1 }, pc := .outer }

/-- One step of `Build`, from one loop head to the next one. -/
def BuildState.step (sem : LoopVar) (s : BuildState) : Except Fault BuildState :=
  match s.pc with
  | .outer =>
    if s.i < s.st.text.length then
      pure { s with remainingSuffixCount := s.remainingSuffixCount + 1
                    lastNewNode := none
                    pc := .inner }
    else
      pure { s with pc := .done }
  | .inner =>
    if s.remainingSuffixCount > 0 then do
      let (s, flow) ← innerBody sem s
      match flow with
      | .next => pure s
      | .brk => pure s.nextPhase
    else
      pure s.nextPhase
  | .done => pure s

/-- Lines 46-53 of `Build`: the state in which the outer loop is entered. -/
def BuildState.init (st : SuffixTree) : Except Fault BuildState := do
  let r ← getNode st.nodes st.root
  let a ← match st.root with
    | some a => pure a
    | none => .error .nilDeref
  pure { st := { st with nodes := st.nodes.set a { r with end_ := .cell (-1) }, loopI := 0 }
         activeNode := st.root
         activeEdge := -1
         activeLength := 0
         remainingSuffixCount := 0
         lastNewNode := none
         pc := .outer }

/-- The state after `k` steps of the machine. -/
def BuildState.steps (sem : LoopVar) : Nat → BuildState → Except Fault BuildState
  | 0, s => pure s
  | k + 1, s => do
    let s ← s.step sem
    BuildState.steps sem k s

/-- The state of `Build` on `st` after `k` steps. -/
def BuildTrace (sem : LoopVar) (k : Nat) (st : SuffixTree) : Except Fault BuildState := do
  let s ← BuildState.init st
  s.steps sem k

/-- The Go method `Build`, run for at most `fuel` steps: `none` when it has not returned
by then, `some (.error f)` when it panicked, `some (.ok t)` when it returned with tree `t`. -/
def Build (sem : LoopVar) (fuel : Nat) (st : SuffixTree) : Option (Except Fault SuffixTree) :=
  match BuildTrace sem fuel st with
  | .error f => some (.error f)
  | .ok s => if s.pc = .done then some (.ok s.st) else none

/-- The expression `st.text[*child.start : *child.end+1]`: the edge label of the node at
address `child`. -/
def edgeLabel (sem : LoopVar) (st : SuffixTree) (child : Nat) : Except Fault (List UInt8) := do
  let ch ← getNode st.nodes (some child)
  let b ← ch.start.load sem st.loopI
  let e ← ch.end_.load sem st.loopI
  sliceOf st.text b (e + 1)

/-- The receiver and the local variables `node` and `i` of `Contains`. -/
structure ContainsState where
  st : SuffixTree
  node : Option Nat
  i : Nat
deriving DecidableEq

/-- One iteration of the loop of `Contains` (lines 146-156), entered with
`i < len(pattern)`: either the next state or the returned value. -/
def ContainsState.step (sem : LoopVar) (pattern : List UInt8) (s : ContainsState) :
    Except Fault (ContainsState ⊕ Bool) := do
  let nd ← getNode s.st.nodes s.node
  match mapGet nd.children (pattern.getD s.i 0) with
  | none => pure (.inr false)
  | some child =>
    let edge ← edgeLabel sem s.st child
    if (pattern.drop s.i).length ≥ edge.length ∧
        (pattern.drop s.i).take edge.length = edge then
      pure (.inl { s with i := s.i + edge.length, node := some child })
    else
      pure (.inr false)

/-- The loop of `Contains` (lines 145-158) for at most `fuel` iterations: the tree it
leaves behind and, unless the fuel ran out, how the call ended. -/
def containsLoop (sem : LoopVar) (pattern : List UInt8) :
    Nat → ContainsState → SuffixTree × Option (Except Fault Bool)
  | 0, s => if s.i < pattern.length then (s.st, none) else (s.st, some (.ok true))
  | fuel + 1, s =>
    if s.i < pattern.length then
      match s.step sem pattern with
      | .error f => (s.st, some (.error f))
      | .ok (.inr b) => (s.st, some (.ok b))
      | .ok (.inl s') => containsLoop sem pattern fuel s'
    else (s.st, some (.ok true))

/-- The Go method `Contains` as a state transformer. -/
def ContainsRun (sem : LoopVar) (fuel : Nat) (st : SuffixTree) (pattern : List UInt8) :
    SuffixTree × Option (Except Fault Bool) :=
  containsLoop sem pattern fuel { st := st, node := st.root, i := 0 }

/-- The Go method `Contains`, run for at most `fuel` iterations of its loop: `none` when
it has not returned by then, `some (.error f)` when it panicked, `some (.ok b)` when it
returned `b`. -/
def Contains (sem : LoopVar) (fuel : Nat) (st : SuffixTree) (pattern : List UInt8) :
    Option (Except Fault Bool) :=
  (ContainsRun sem fuel st pattern).2

/-- The idiom of the tests: `st := NewSuffixTree(text); st.Build(); st.Contains(pattern)`,
with `fuel` bounding the steps of `Build` and the iterations of `Contains`. -/
def buildAndQuery (sem : LoopVar) (fuel : Nat) (text pattern : List UInt8) :
    Option (Except Fault Bool) :=
  match Build sem fuel (NewSuffixTree text) with
  | none => none
  | some (.error f) => some (.error f)
  | some (.ok t) => Contains sem fuel t pattern
/-- The leaf that `Build` creates in phase `k`: `NewNode(&i, &end)` with `end := i`. -/
def leafAt (k : Nat) : Node := NewNode (.loopI k) (.cell k)

/-- The children map of the root after one leaf has been hung under each byte of `pre`,
the leaf for the byte at position `k` at address `j + k + 1`. -/
def starChildren (j : Nat) : List UInt8 → List (UInt8 × Nat)
  | [] => []
  | b :: rest => (b, j + 1) :: starChildren (j + 1) rest

/-- The heap after one leaf has been hung under the root for each byte of `pre`. -/
def starNodes (pre : List UInt8) : List Node :=
  { children := starChildren 0 pre, suffixLink := none, start := .null, end_ := .cell (-1),
    id := -1 } :: (List.range pre.length).map leafAt

/-- The tree over `text` in which the root has one childless child per byte of `pre`. -/
def starTree (text pre : List UInt8) : SuffixTree :=
  { root := some 0
    text := text
    nodeCount := pre.length
    nodes := starNodes pre
    loopI := pre.length }

/-- The state of `Build` at the head of the outer loop after the phases of `pre`, when no
byte of `pre` has occurred twice. -/
def starState (text pre : List UInt8) : BuildState :=
  { st := starTree text pre
    activeNode := some 0
    activeEdge := (pre.length : Int) - 1
    activeLength := 0
    remainingSuffixCount := 0
    lastNewNode := none
    pc := .outer }

/-- The state in which `Build` returns when no byte of the stored text occurs twice. -/
def doneState (text : List UInt8) : BuildState :=
  { starState text text with pc := .done }

/-- The tree that `Build` leaves for the empty input: the root and one leaf under `'$'`. -/
def emptyTextTree : SuffixTree :=
  { root := some 0
    text := [sentinel]
    nodeCount := 1
    nodes :=
      [ { children := [(sentinel, 1)], suffixLink := none, start := .null, end_ := .cell (-1),
          id := -1 },
        { children := [], suffixLink := none, start := .loopI 0, end_ := .cell 0, id := -1 } ]
    loopI := 1 }

/-- The part of the state that a statement of the inner loop leaves alone: the text, the
loop variable and the program point. -/
structure Frame (s s' : BuildState) : Prop where
  text : s'.st.text = s.st.text
  loopI : s'.st.loopI = s.st.loopI
  pc : s'.pc = s.pc

/-- Invariant of `Build` behind the node-count bound, with `n` the length of the stored
text: every pending suffix still has room for the two nodes its extension may create. -/
def CountInv (n : Int) (s : BuildState) : Prop :=
  (s.st.text.length : Int) = n ∧ 0 ≤ s.remainingSuffixCount ∧
    match s.pc with
    | .outer => s.st.nodeCount + 2 * s.remainingSuffixCount ≤ 2 * s.i ∧ s.i ≤ n
    | .inner => s.st.nodeCount + 2 * s.remainingSuffixCount ≤ 2 * (s.i + 1) ∧ s.i < n
    | .done => s.st.nodeCount ≤ 2 * n

/-- A state in which the active point lies one byte down the edge to the leaf of "a". -/
def walkDownSample : BuildState :=
  { starState (ascii "ab$") (ascii "a") with activeEdge := 0, activeLength := 1 }

/-- The relation `Path sem st p w q`: following child links from the node `p`, the edge
labels read along the way concatenate to `w` and the node reached is `q`. -/
inductive Path (sem : LoopVar) (st : SuffixTree) : Option Nat → List UInt8 → Option Nat → Prop
  /-- The empty path. -/
  | nil (p : Option Nat) : Path sem st p [] p
  /-- An edge to a child followed by a path from that child. -/
  | cons {p q : Option Nat} {nd : Node} {c : UInt8} {ch : Nat} {e r : List UInt8} :
      getNode st.nodes p = .ok nd → mapGet nd.children c = some ch →
      edgeLabel sem st ch = .ok e → Path sem st (some ch) r q → Path sem st p (e ++ r) q

/-- Every child of a node of the tree (a node reached from the root) is stored under the
first byte of its edge label, which is therefore not empty. -/
def KeyedByFirstByte (sem : LoopVar) (st : SuffixTree) : Prop :=
  ∀ (w : List UInt8) (p : Option Nat) (nd : Node) (c : UInt8) (ch : Nat),
    Path sem st st.root w p → getNode st.nodes p = .ok nd → mapGet nd.children c = some ch →
      ∃ e, edgeLabel sem st ch = .ok e ∧ e.head? = some c

/-- Every child entry of every allocated node is stored under the first byte of the child's
edge label. -/
def KeyedHeap (sem : LoopVar) (st : SuffixTree) : Prop :=
  ∀ (a : Nat) (nd : Node) (c : UInt8) (ch : Nat),
    st.nodes[a]? = some nd → mapGet nd.children c = some ch →
      ∃ e, edgeLabel sem st ch = .ok e ∧ e.head? = some c

/-- The compressed suffix tree of "a": the root with the leaves "a$" and "$". -/
def compressedTreeOfA : SuffixTree :=
  { root := some 0
    text := ascii "a$"
    nodeCount := 2
    nodes :=
      [ { children := [(97, 1), (36, 2)], suffixLink := none, start := .null,
          end_ := .cell (-1), id := -1 },
        { children := [], suffixLink := none, start := .cell 0, end_ := .cell 1, id := -1 },
        { children := [], suffixLink := none, start := .cell 1, end_ := .cell 1, id := -1 } ]
    loopI := 2 }

/-- Lines 59-61 of `Build`: `if activeLength == 0 { activeEdge = i }`. -/
def BuildState.resetEdge (s : BuildState) : BuildState :=
  if s.activeLength = 0 then { s with activeEdge := s.i } else s

/-- The branch of lines 63-103 that an iteration of the inner loop takes, with the state and
the values it goes on with. -/
inductive Branch where
  /-- Lines 64-71: the active node `a` has no child under the byte `c`. -/
  | leaf (s : BuildState) (a : Nat) (c : UInt8)
  /-- Lines 74-76: `walkDown` moved the active point; `continue`. -/
  | walk (s : BuildState)
  /-- Lines 78-85: the next byte of the edge is the current byte; `break`. -/
  | extend (s : BuildState)
  /-- Lines 87-102: the edge from `a` under `c` to `nx` is split. -/
  | split (s : BuildState) (a : Nat) (c : UInt8) (nx : Nat)

/-- The guards of lines 59-78 of `Build`: which branch the iteration takes. -/
def innerBranch (sem : LoopVar) (s : BuildState) : Except Fault Branch := do
  let s := if s.activeLength = 0 then { s with activeEdge := s.i } else s
  let an ← getNode s.st.nodes s.activeNode
  let c ← byteAt s.st.text s.activeEdge
  match s.activeNode, mapGet an.children c with
  | none, _ => .error .nilDeref
  | some a, none => pure (.leaf s a c)
  | some a, some nx =>
    let (s, walked) ← walkDown sem s
    if walked then
      pure (.walk s)
    else
      let next ← getNode s.st.nodes (some nx)
      let b ← next.start.load sem s.i
      let x ← byteAt s.st.text (b + s.activeLength)
      let ci ← byteAt s.st.text s.i
      if x = ci then pure (.extend s) else pure (.split s a c nx)

/-- The statements of the branch taken, up to the end of the iteration. -/
def runBranch (sem : LoopVar) : Branch → Except Fault (BuildState × Flow)
  | .leaf s a c => do
    let s ← addLeaf s a c
    let s ← advance s
    pure (s, .next)
  | .walk s => pure (s, .next)
  | .extend s => do
    let s ← if s.activeNode ≠ s.st.root then s.linkPending else pure s
    pure ({ s with activeLength := s.activeLength + 1 }, .brk)
  | .split s a c nx => do
    let s ← splitEdge sem s a c nx
    let s ← advance s
    pure (s, .next)

/-- Invariant of `Build` on the shape of the heap: the root is at address 0, nothing is
pending for a suffix link, no suffix link is set, every other node is a leaf whose `start`
is `&i` of the phase `k` that made it and whose `end` is a copy of `k`, and the children
maps hold addresses of such nodes. -/
structure Shape (s : BuildState) : Prop where
  root : s.st.root = some 0
  rootAlloc : 0 < s.st.nodes.length
  noPending : s.lastNewNode = none
  noLink : ∀ (a : Nat) (nd : Node), s.st.nodes[a]? = some nd → nd.suffixLink = none
  leaves : ∀ (a : Nat) (nd : Node), s.st.nodes[a]? = some nd → a ≠ 0 →
    ∃ k : Int, nd.start = .loopI k ∧ nd.end_ = .cell k ∧ 0 ≤ k ∧ k ≤ s.i ∧
      k < (s.st.text.length : Int)
  children : ∀ (a : Nat) (nd : Node) (c : UInt8) (ch : Nat), s.st.nodes[a]? = some nd →
    mapGet nd.children c = some ch → ch ≠ 0 ∧ ch < s.st.nodes.length
  lenNonneg : 0 ≤ s.activeLength
  iNonneg : 0 ≤ s.i
  inRange : s.pc = .inner → s.i < (s.st.text.length : Int)

/-- Invariant of `Build` with a per-iteration loop variable: every child is stored under
the byte at its `start`, and the active length is 0, or 1 with the active edge leading to a
child of the active node. -/
structure Keyed (s : BuildState) : Prop where
  key : ∀ (a : Nat) (nd : Node) (c : UInt8) (ch : Nat), s.st.nodes[a]? = some nd →
    mapGet nd.children c = some ch →
    ∃ (chn : Node) (k : Int), s.st.nodes[ch]? = some chn ∧ chn.start = .loopI k ∧
      byteAt s.st.text k = .ok c
  active : s.activeLength = 0 ∨
    (s.activeLength = 1 ∧ ∃ (an : Node) (c : UInt8) (ch : Nat),
      getNode s.st.nodes s.activeNode = .ok an ∧ byteAt s.st.text s.activeEdge = .ok c ∧
      mapGet an.children c = some ch)

/-- The invariant of `Build` for the given meaning of the loop variable. -/
def Inv (sem : LoopVar) (s : BuildState) : Prop :=
  Shape s ∧ (sem = .perIteration → Keyed s)

/-- The number of phases of `Build` that have been started. -/
def phasesStarted (s : BuildState) : Int :=
  match s.pc with
  | .inner => s.i + 1
  | .outer => s.i
  | .done => s.i

/-- Invariant of `Build` on its counters: the nodes created and the suffixes still pending
together do not exceed the phases started. -/
def CountOne (s : BuildState) : Prop :=
  0 ≤ s.remainingSuffixCount ∧
    s.st.nodeCount + s.remainingSuffixCount ≤ phasesStarted s

/-! ## Running with more fuel -/

theorem steps_add (sem : LoopVar) (a b : Nat) (s : BuildState) :
    BuildState.steps sem (a + b) s = (BuildState.steps sem a s >>= BuildState.steps sem b) := by
  induction a generalizing s with
  | zero => simp [BuildState.steps, bind, Except.bind, pure, Except.pure]
  | succ a ih =>
    rw [Nat.succ_add]
    simp only [BuildState.steps, bind, Except.bind]
    cases h : s.step sem with
    | error f => rfl
    | ok s1 => simpa [bind, Except.bind] using ih s1

theorem steps_done (sem : LoopVar) (k : Nat) (s : BuildState) (h : s.pc = .done) :
    BuildState.steps sem k s = .ok s := by
  induction k with
  | zero => rfl
  | succ k ih =>
    simp only [BuildState.steps, BuildState.step, h, bind, Except.bind, pure, Except.pure]
    exact ih

theorem BuildTrace_add (sem : LoopVar) (a b : Nat) (st : SuffixTree) :
    BuildTrace sem (a + b) st = (BuildTrace sem a st >>= BuildState.steps sem b) := by
  unfold BuildTrace
  cases BuildState.init st with
  | error f => rfl
  | ok s => simpa [bind, Except.bind] using steps_add sem a b s

theorem Build_mono {sem : LoopVar} {k k' : Nat} {st : SuffixTree}
    {r : Except Fault SuffixTree} (h : Build sem k st = some r) (hk : k ≤ k') :
    Build sem k' st = some r := by
  obtain ⟨j, rfl⟩ := Nat.exists_eq_add_of_le hk
  unfold Build at h ⊢
  rw [BuildTrace_add]
  cases ht : BuildTrace sem k st with
  | error f => simpa [ht, bind, Except.bind] using h
  | ok s =>
    rw [ht] at h
    by_cases hd : s.pc = .done
    · simp only [hd, if_true] at h
      simp [bind, Except.bind, steps_done sem j s hd, hd, h]
    · simp [hd] at h

theorem containsLoop_succ {sem : LoopVar} {pattern : List UInt8} {fuel : Nat}
    {s : ContainsState} {r : Except Fault Bool}
    (h : (containsLoop sem pattern fuel s).2 = some r) :
    (containsLoop sem pattern (fuel + 1) s).2 = some r := by
  induction fuel generalizing s with
  | zero =>
    by_cases hi : s.i < pattern.length
    · simp [containsLoop, hi] at h
    · simpa [containsLoop, hi] using h
  | succ fuel ih =>
    rw [containsLoop] at h
    rw [containsLoop]
    by_cases hi : s.i < pattern.length
    · simp only [hi, if_true] at h ⊢
      cases hs : s.step sem pattern with
      | error f => simpa [hs] using h
      | ok v =>
        cases v with
        | inr b => simpa [hs] using h
        | inl s1 =>
          simp only [hs] at h ⊢
          exact ih h
    · simpa [hi] using h

theorem Contains_mono {sem : LoopVar} {k k' : Nat} {st : SuffixTree} {pattern : List UInt8}
    {r : Except Fault Bool} (h : Contains sem k st pattern = some r) (hk : k ≤ k') :
    Contains sem k' st pattern = some r := by
  induction hk with
  | refl => exact h
  | step _ ih => exact containsLoop_succ ih

theorem buildAndQuery_mono {sem : LoopVar} {k k' : Nat} {text pattern : List UInt8}
    {r : Except Fault Bool} (h : buildAndQuery sem k text pattern = some r) (hk : k ≤ k') :
    buildAndQuery sem k' text pattern = some r := by
  unfold buildAndQuery at h ⊢
  cases hb : Build sem k (NewSuffixTree text) with
  | none => simp [hb] at h
  | some o =>
    rw [Build_mono hb hk]
    cases o with
    | error f => simpa [hb] using h
    | ok t =>
      simp only [hb] at h
      exact Contains_mono h hk

/-- The outcome of build-then-query does not depend on the fuel that was enough for it. -/
theorem buildAndQuery_unique {sem : LoopVar} {k k' : Nat} {text pattern : List UInt8}
    {r r' : Except Fault Bool} (h : buildAndQuery sem k text pattern = some r)
    (h' : buildAndQuery sem k' text pattern = some r') : r = r' := by
  rcases Nat.le_total k k' with hk | hk
  · have := buildAndQuery_mono h hk
    rw [h'] at this
    exact (Option.some.inj this).symm
  · have := buildAndQuery_mono h' hk
    rw [h] at this
    exact Option.some.inj this

/-! ## Texts without repeated bytes: the tree is a star -/

theorem byteAt_of_getElem? {l : List UInt8} {k : Nat} {b : UInt8} (h : l[k]? = some b) :
    byteAt l (k : Int) = .ok b := by
  simp [byteAt, h]

theorem byteAt_append_length (pre rest : List UInt8) (b : UInt8) :
    byteAt (pre ++ b :: rest) (pre.length : Int) = .ok b := by
  apply byteAt_of_getElem?
  rw [List.getElem?_append_right (le_refl _)]
  simp

theorem mapGet_starChildren_none {pre : List UInt8} {b : UInt8} (h : b ∉ pre) (j : Nat) :
    mapGet (starChildren j pre) b = none := by
  induction pre generalizing j with
  | nil => rfl
  | cons a pre ih =>
    simp only [List.mem_cons, not_or] at h
    simp only [starChildren, mapGet]
    rw [if_neg (fun e => h.1 e.symm)]
    exact ih h.2 _

theorem mapSet_starChildren {pre : List UInt8} {b : UInt8} (h : b ∉ pre) (j : Nat) :
    mapSet (starChildren j pre) b (j + pre.length + 1) = starChildren j (pre ++ [b]) := by
  induction pre generalizing j with
  | nil => rfl
  | cons a pre ih =>
    simp only [List.mem_cons, not_or] at h
    simp only [starChildren, mapSet, List.cons_append, List.length_cons]
    rw [if_neg (fun e => h.1 e.symm)]
    have := ih h.2 (j + 1)
    rw [show j + (pre.length + 1) + 1 = j + 1 + pre.length + 1 by omega, this]
    rfl

theorem mapGet_starChildren_some {pre : List UInt8} {b : UInt8} (h : b ∈ pre) (j : Nat) :
    ∃ k, k < pre.length ∧ pre[k]? = some b ∧ mapGet (starChildren j pre) b = some (j + k + 1) := by
  induction pre generalizing j with
  | nil => cases h
  | cons a pre ih =>
    by_cases e : a = b
    · exact ⟨0, by simp, by simp [e], by simp [starChildren, mapGet, e]⟩
    · have hb : b ∈ pre := by
        rcases List.mem_cons.1 h with h1 | h1
        · exact absurd h1.symm e
        · exact h1
      obtain ⟨k, hk, hg, hm⟩ := ih hb (j + 1)
      refine ⟨k + 1, by simpa using hk, by simpa using hg, ?_⟩
      simp only [starChildren, mapGet, if_neg e, hm]
      congr 1
      omega

theorem getNode_starNodes_leaf {pre : List UInt8} {k : Nat} (h : k < pre.length) :
    getNode (starNodes pre) (some (k + 1)) = .ok (leafAt k) := by
  simp [getNode, starNodes, List.getElem?_map, List.getElem?_range h]

theorem starNodes_append (pre : List UInt8) (b : UInt8) :
    starNodes (pre ++ [b]) =
      ({ children := starChildren 0 (pre ++ [b]), suffixLink := none, start := .null,
         end_ := .cell (-1), id := -1 } : Node) ::
        ((List.range pre.length).map leafAt ++ [leafAt pre.length]) := by
  simp [starNodes, List.range_succ]

/-- A phase whose byte has not occurred before hangs one new leaf under the root. -/
theorem steps_fresh (sem : LoopVar) (pre rest : List UInt8) (b : UInt8) (h : b ∉ pre) :
    BuildState.steps sem 3 (starState (pre ++ b :: rest) pre) =
      .ok (starState (pre ++ b :: rest) (pre ++ [b])) := by
  have hlen : (pre.length : Int) < ((pre ++ b :: rest).length : Int) := by
    simp only [List.length_append, List.length_cons]; omega
  simp [BuildState.steps, BuildState.step, starState, starTree, BuildState.i, bind, Except.bind,
    pure, Except.pure, hlen, innerBody, getNode, starNodes, byteAt_append_length,
    mapGet_starChildren_none h, addLeaf, BuildState.linkPending, BuildState.incNodeCount, BuildState.alloc,
    BuildState.setChild, BuildState.setNode, advance, BuildState.nextPhase]
  constructor
  · simpa using mapSet_starChildren h 0
  · simp [List.range_succ, leafAt]

/-- When no byte of the text occurs twice, the phases of `rest` turn the star over `pre`
into the star over the whole text. -/
theorem steps_star (sem : LoopVar) (rest pre : List UInt8) (h : (pre ++ rest).Nodup) :
    BuildState.steps sem (3 * rest.length) (starState (pre ++ rest) pre) =
      .ok (starState (pre ++ rest) (pre ++ rest)) := by
  induction rest generalizing pre with
  | nil => simp [BuildState.steps, pure, Except.pure]
  | cons b rest ih =>
    have hb : b ∉ pre := by
      intro hm
      have := List.disjoint_of_nodup_append h
      exact this hm (List.mem_cons_self _ _)
    have h2 : ((pre ++ [b]) ++ rest).Nodup := by simpa using h
    have e : pre ++ b :: rest = (pre ++ [b]) ++ rest := by simp
    rw [show 3 * (b :: rest).length = 3 + 3 * rest.length by simp; ring, steps_add,
      steps_fresh sem pre rest b hb]
    simp only [bind, Except.bind]
    rw [e]
    exact ih (pre ++ [b]) h2

theorem init_NewSuffixTree (T : List UInt8) :
    BuildState.init (NewSuffixTree T) = .ok (starState (T ++ [sentinel]) []) := by
  rfl

/-- On a text without repeated bytes `Build` returns, with the star over the stored text. -/
theorem Build_nodup (sem : LoopVar) (T : List UInt8) (h : (T ++ [sentinel]).Nodup) :
    Build sem (3 * (T.length + 1) + 1) (NewSuffixTree T) =
      some (.ok (starTree (T ++ [sentinel]) (T ++ [sentinel]))) := by
  have h1 := steps_star sem (T ++ [sentinel]) [] (by simpa using h)
  simp only [List.nil_append, List.length_append, List.length_singleton] at h1
  unfold Build
  rw [BuildTrace_add]
  simp only [BuildTrace, init_NewSuffixTree, bind, Except.bind, h1]
  simp [BuildState.steps, BuildState.step, starState, starTree, BuildState.i, bind, Except.bind,
    pure, Except.pure]

/-! ## Texts with a repeated byte: the active node becomes nil -/

theorem getNode_append_of_ok {l : List Node} {p : Option Nat} {nd : Node}
    (h : getNode l p = .ok nd) (l' : List Node) : getNode (l ++ l') p = .ok nd := by
  cases p with
  | none => simp [getNode] at h
  | some a =>
    simp only [getNode] at h ⊢
    cases hg : l[a]? with
    | none => simp [hg] at h
    | some x =>
      have ha : a < l.length := by
        by_contra hc
        rw [List.getElem?_eq_none (by omega)] at hg
        cases hg
      rw [List.getElem?_append_left ha, hg]
      simpa [hg] using h

theorem getNode_set_self {l : List Node} {a : Nat} {nd : Node}
    (h : getNode l (some a) = .ok nd) (x : Node) : getNode (l.set a x) (some a) = .ok x := by
  simp only [getNode] at h ⊢
  cases hg : l[a]? with
  | none => simp [hg] at h
  | some y =>
    have ha : a < l.length := by
      by_contra hc
      rw [List.getElem?_eq_none (by omega)] at hg
      cases hg
    simp [List.getElem?_set_self ha]

theorem getNode_starNodes_root (pre : List UInt8) :
    getNode (starNodes pre) (some 0) =
      .ok { children := starChildren 0 pre, suffixLink := none, start := .null,
            end_ := .cell (-1), id := -1 } := by
  simp [getNode, starNodes]

theorem getNode_none (l : List Node) : getNode l none = .error .nilDeref := rfl

theorem steps_repeat_aux (text pre : List UInt8) (b c : UInt8) (k : Nat)
    (hlen : (pre.length : Int) < (text.length : Int))
    (hlen2 : (pre.length : Int) + 1 < (text.length : Int))
    (hb : byteAt text (pre.length : Int) = .ok b)
    (hc : byteAt text ((pre.length : Int) + 1) = .ok c)
    (hk : k < pre.length) (htk : byteAt text (k : Int) = .ok b)
    (hm : mapGet (starChildren 0 pre) b = some (k + 1)) :
    BuildState.steps .perIteration 6 (starState text pre) = .error .nilDeref := by
  have hleaf := getNode_starNodes_leaf hk
  have hroot := getNode_starNodes_root pre
  have h5a : ∀ l', getNode (starNodes pre ++ l') (some (k + 1)) = .ok (leafAt k) :=
    fun l' => getNode_append_of_ok hleaf l'
  have h5b : ∀ l' x, getNode ((starNodes pre ++ l').set (k + 1) x) (some (k + 1)) = .ok x :=
    fun l' x => getNode_set_self (h5a l') x
  simp [BuildState.steps, BuildState.step, starState, starTree, BuildState.i, bind, Except.bind,
    pure, Except.pure, hlen, hlen2, innerBody, hb, hc, hm, walkDown, hleaf, hroot, h5a, h5b, getNode_none,
    leafAt, NewNode, IntPtr.load, htk, mapGet, addLeaf, BuildState.linkPending, BuildState.incNodeCount, BuildState.alloc,
    BuildState.setChild, BuildState.setNode, advance, BuildState.nextPhase]

/-- A phase whose byte already hangs under the root, followed by one more phase: the walk
down enters the leaf, a node is hung under it, the nil suffix link of the leaf is followed
and the next iteration of the inner loop dereferences it. -/
theorem steps_repeat (pre rest : List UInt8) (b c : UInt8) (h : b ∈ pre) :
    BuildState.steps .perIteration 6 (starState (pre ++ b :: c :: rest) pre) =
      .error .nilDeref := by
  obtain ⟨k, hk, hg, hm⟩ := mapGet_starChildren_some h 0
  simp only [Nat.zero_add] at hm
  apply steps_repeat_aux (pre ++ b :: c :: rest) pre b c k
  · simp only [List.length_append, List.length_cons]; omega
  · simp only [List.length_append, List.length_cons]; omega
  · exact byteAt_append_length _ _ _
  · have := byteAt_append_length (pre ++ [b]) rest c
    simpa using this
  · exact hk
  · apply byteAt_of_getElem?
    rw [List.getElem?_append_left hk]
    exact hg
  · exact hm

/-- When the bytes before the sentinel are not pairwise distinct, `Build` panics on a nil
active node (per-iteration loop variable). -/
theorem steps_not_nodup (rest pre : List UInt8) (hs : sentinel ∉ pre ++ rest)
    (hpre : pre.Nodup) (h : ¬ (pre ++ rest).Nodup) :
    ∃ k, BuildState.steps .perIteration k (starState (pre ++ rest ++ [sentinel]) pre) =
      .error .nilDeref := by
  induction rest generalizing pre with
  | nil => exact absurd (by simpa using hpre) h
  | cons b rest ih =>
    by_cases hb : b ∈ pre
    · cases rest with
      | nil =>
        refine ⟨6, ?_⟩
        simpa using steps_repeat pre [] b sentinel hb
      | cons c rest =>
        refine ⟨6, ?_⟩
        simpa using steps_repeat pre (rest ++ [sentinel]) b c hb
    · have hpre2 : (pre ++ [b]).Nodup := by
        rw [List.nodup_append]
        refine ⟨hpre, List.nodup_singleton b, ?_⟩
        intro x hx hx2
        rw [List.mem_singleton] at hx2
        exact hb (hx2 ▸ hx)
      have e : pre ++ b :: rest = (pre ++ [b]) ++ rest := by simp
      obtain ⟨k, hk⟩ := ih (pre ++ [b]) (by rw [← e]; exact hs) hpre2 (by rw [← e]; exact h)
      refine ⟨3 + k, ?_⟩
      have hf := steps_fresh .perIteration pre (rest ++ [sentinel]) b hb
      rw [steps_add]
      have e2 : pre ++ b :: rest ++ [sentinel] = pre ++ b :: (rest ++ [sentinel]) := by simp
      rw [e2, hf]
      simp only [bind, Except.bind]
      have e3 : pre ++ b :: (rest ++ [sentinel]) = pre ++ [b] ++ rest ++ [sentinel] := by simp
      rw [e3]
      exact hk

/-- On an input with a repeated byte and no sentinel `Build` panics (per-iteration loop
variable). -/
theorem Build_not_nodup (T : List UInt8) (hs : sentinel ∉ T) (h : ¬ T.Nodup) :
    ∃ k, Build .perIteration k (NewSuffixTree T) = some (.error .nilDeref) := by
  obtain ⟨k, hk⟩ := steps_not_nodup T [] (by simpa using hs) List.nodup_nil (by simpa using h)
  refine ⟨k, ?_⟩
  simp only [List.nil_append] at hk
  simp [Build, BuildTrace, init_NewSuffixTree, bind, Except.bind, hk]

theorem Build_unique {sem : LoopVar} {k k' : Nat} {st : SuffixTree}
    {r r' : Except Fault SuffixTree} (h : Build sem k st = some r)
    (h' : Build sem k' st = some r') : r = r' := by
  rcases Nat.le_total k k' with hk | hk
  · have := Build_mono h hk
    rw [h'] at this
    exact (Option.some.inj this).symm
  · have := Build_mono h' hk
    rw [h] at this
    exact Option.some.inj this

theorem nodup_append_sentinel {T : List UInt8} (hs : sentinel ∉ T) (h : T.Nodup) :
    (T ++ [sentinel]).Nodup := by
  rw [List.nodup_append]
  refine ⟨h, List.nodup_singleton _, ?_⟩
  intro x hx hx2
  rw [List.mem_singleton] at hx2
  exact hs (hx2 ▸ hx)

/-- Whenever `Build` returns on an input without the sentinel, the input has no repeated
byte and the tree is the star over the stored text (per-iteration loop variable). -/
theorem Build_ok_star {T : List UInt8} (hs : sentinel ∉ T) {fuel : Nat} {t : SuffixTree}
    (h : Build .perIteration fuel (NewSuffixTree T) = some (.ok t)) :
    T.Nodup ∧ t = starTree (T ++ [sentinel]) (T ++ [sentinel]) := by
  by_cases hn : T.Nodup
  · refine ⟨hn, ?_⟩
    have h2 := Build_nodup .perIteration T (nodup_append_sentinel hs hn)
    have := Build_unique h h2
    exact Except.ok.inj this
  · obtain ⟨k, hk⟩ := Build_not_nodup T hs hn
    have := Build_unique h hk
    cases this

/-! ## Queries against a star -/

theorem sliceOf_single {l : List UInt8} {k : Nat} {c : UInt8} (h : l[k]? = some c) :
    sliceOf l (k : Int) ((k : Int) + 1) = .ok [c] := by
  have hk : k < l.length := by
    by_contra hc
    rw [List.getElem?_eq_none (by omega)] at h
    cases h
  have h1 : (0 : Int) ≤ (k : Int) ∧ (k : Int) ≤ (k : Int) + 1 ∧ (k : Int) + 1 ≤ (l.length : Int) := by
    omega
  have h2 : ((k : Int) + 1).toNat - (k : Int).toNat = 1 := by omega
  simp only [sliceOf, h1, and_self, if_true, h2, Int.toNat_ofNat]
  congr 1
  rw [List.getElem?_eq_getElem hk] at h
  have hc : l[k] = c := Option.some.inj h
  rw [List.drop_eq_getElem_cons hk, hc]
  simp

/-- The label of the edge to the leaf of phase `k` is the single byte at position `k`
(per-iteration loop variable). -/
theorem edgeLabel_star {text pre : List UInt8} {k : Nat} {c : UInt8} (hk : k < pre.length)
    (h : text[k]? = some c) :
    edgeLabel .perIteration (starTree text pre) (k + 1) = .ok [c] := by
  simp [edgeLabel, starTree, getNode_starNodes_leaf hk, bind, Except.bind, leafAt, NewNode,
    IntPtr.load, sliceOf_single h]

/-- A query against the star whose first byte hangs under the root: the byte is consumed,
and the query succeeds exactly when nothing follows it. -/
theorem Contains_star_mem (text pre rest : List UInt8) (ht : text = pre ++ rest) {c : UInt8}
    (hc : c ∈ pre) (P : List UInt8) (fuel : Nat) :
    Contains .perIteration (fuel + 2) (starTree text pre) (c :: P) = some (.ok (decide (P = []))) := by
  obtain ⟨k, hk, hg, hm⟩ := mapGet_starChildren_some hc 0
  simp only [Nat.zero_add] at hm
  have hg2 : text[k]? = some c := by
    rw [ht, List.getElem?_append_left hk]
    exact hg
  have hroot : getNode (starTree text pre).nodes (some 0) =
      .ok { children := starChildren 0 pre, suffixLink := none, start := .null,
            end_ := .cell (-1), id := -1 } := getNode_starNodes_root pre
  have hleaf : getNode (starTree text pre).nodes (some (k + 1)) = .ok (leafAt k) :=
    getNode_starNodes_leaf hk
  have hroot0 : (starTree text pre).root = some 0 := rfl
  unfold Contains ContainsRun
  rw [containsLoop]
  simp only [List.length_cons, Nat.zero_lt_succ, if_true, ContainsState.step, hroot0, hroot,
    bind, Except.bind, List.getD_cons_zero, hm, edgeLabel_star hk hg2, pure, Except.pure,
    List.drop_zero, List.length_singleton, List.take_succ_cons, List.take_zero, ge_iff_le,
    Nat.le_add_left, and_self, Nat.zero_add, List.length_nil]
  rw [containsLoop]
  cases P with
  | nil => simp
  | cons d P =>
    simp [ContainsState.step, hleaf, bind, Except.bind, leafAt, NewNode, mapGet, pure,
      Except.pure]

/-- A query against the star whose first byte does not hang under the root fails. -/
theorem Contains_star_not_mem {text pre : List UInt8} {c : UInt8} (hc : c ∉ pre)
    (P : List UInt8) (fuel : Nat) :
    Contains .perIteration (fuel + 1) (starTree text pre) (c :: P) = some (.ok false) := by
  have hroot : getNode (starTree text pre).nodes (some 0) =
      .ok { children := starChildren 0 pre, suffixLink := none, start := .null,
            end_ := .cell (-1), id := -1 } := getNode_starNodes_root pre
  have hroot0 : (starTree text pre).root = some 0 := rfl
  unfold Contains ContainsRun
  rw [containsLoop]
  simp [ContainsState.step, hroot0, hroot, bind, Except.bind, mapGet_starChildren_none hc, pure,
    Except.pure]

/-! ## Counting nodes -/

theorem setSuffixLink_frame {s s' : BuildState} {a : Nat} {q : Option Nat}
    (h : s.setSuffixLink a q = .ok s') :
    Frame s s' ∧ s'.st.nodeCount = s.st.nodeCount ∧
      s'.remainingSuffixCount = s.remainingSuffixCount := by
  unfold BuildState.setSuffixLink at h
  simp only [bind, Except.bind, pure, Except.pure] at h
  split at h
  · cases h
  · cases h
    exact ⟨⟨rfl, rfl, rfl⟩, rfl, rfl⟩

theorem setChild_frame {s s' : BuildState} {a : Nat} {c : UInt8} {q : Nat}
    (h : s.setChild a c q = .ok s') :
    Frame s s' ∧ s'.st.nodeCount = s.st.nodeCount ∧
      s'.remainingSuffixCount = s.remainingSuffixCount := by
  unfold BuildState.setChild at h
  simp only [bind, Except.bind, pure, Except.pure] at h
  split at h
  · cases h
  · cases h
    exact ⟨⟨rfl, rfl, rfl⟩, rfl, rfl⟩

theorem advance_frame {s s' : BuildState} (h : advance s = .ok s') :
    Frame s s' ∧ s'.st.nodeCount = s.st.nodeCount ∧
      s'.remainingSuffixCount = s.remainingSuffixCount - 1 := by
  unfold advance at h
  simp only [bind, Except.bind, pure, Except.pure] at h
  split at h
  · cases h
    exact ⟨⟨rfl, rfl, rfl⟩, rfl, rfl⟩
  · split at h
    · split at h
      · cases h
      · cases h
        exact ⟨⟨rfl, rfl, rfl⟩, rfl, rfl⟩
    · cases h
      exact ⟨⟨rfl, rfl, rfl⟩, rfl, rfl⟩

theorem walkDown_frame {sem : LoopVar} {s s' : BuildState} {w : Bool}
    (h : walkDown sem s = .ok (s', w)) :
    Frame s s' ∧ s'.st.nodeCount = s.st.nodeCount ∧
      s'.remainingSuffixCount = s.remainingSuffixCount := by
  unfold walkDown at h
  simp only [bind, Except.bind, pure, Except.pure] at h
  repeat' split at h
  all_goals (cases h; try exact ⟨⟨rfl, rfl, rfl⟩, rfl, rfl⟩)

theorem linkPending_frame {s s' : BuildState} (h : s.linkPending = .ok s') :
    Frame s s' ∧ s'.st.nodeCount = s.st.nodeCount ∧
      s'.remainingSuffixCount = s.remainingSuffixCount := by
  unfold BuildState.linkPending at h
  split at h
  · simp only [bind, Except.bind, pure, Except.pure] at h
    split at h
    · cases h
    · rename_i s2 h2
      obtain ⟨f2, n2, r2⟩ := setSuffixLink_frame h2
      cases h
      exact ⟨⟨f2.text, f2.loopI, f2.pc⟩, n2, r2⟩
  · cases h
    exact ⟨⟨rfl, rfl, rfl⟩, rfl, rfl⟩

theorem addLeaf_frame {s s' : BuildState} {a : Nat} {c : UInt8}
    (h : addLeaf s a c = .ok s') :
    Frame s s' ∧ s'.st.nodeCount = s.st.nodeCount + 1 ∧
      s'.remainingSuffixCount = s.remainingSuffixCount := by
  unfold addLeaf at h
  simp only [bind, Except.bind, pure, Except.pure, BuildState.alloc] at h
  split at h
  · cases h
  · rename_i s1 h1
    obtain ⟨f1, n1, r1⟩ := setChild_frame h1
    obtain ⟨f2, n2, r2⟩ := linkPending_frame h
    exact ⟨⟨f2.text.trans f1.text, f2.loopI.trans f1.loopI, f2.pc.trans f1.pc⟩,
      n2.trans n1, r2.trans r1⟩

theorem splitEdge_frame {sem : LoopVar} {s s' : BuildState} {a : Nat} {c : UInt8} {nx : Nat}
    (h : splitEdge sem s a c nx = .ok s') :
    Frame s s' ∧ s'.st.nodeCount = s.st.nodeCount + 2 ∧
      s'.remainingSuffixCount = s.remainingSuffixCount := by
  unfold splitEdge at h
  simp only [bind, Except.bind, pure, Except.pure, BuildState.alloc] at h
  split at h
  · cases h
  split at h
  · cases h
  split at h
  · cases h
  rename_i s1 h1
  obtain ⟨f1, n1, r1⟩ := setChild_frame h1
  split at h
  · cases h
  split at h
  · cases h
  rename_i s2 h2
  obtain ⟨f2, n2, r2⟩ := setChild_frame h2
  split at h
  · cases h
  split at h
  · cases h
  split at h
  · cases h
  rename_i s3 h3
  obtain ⟨f3, n3, r3⟩ := setChild_frame h3
  simp only [BuildState.setNode, BuildState.incNodeCount] at f1 n1 r1 f2 n2 r2 f3 n3 r3
  split at h
  · split at h
    · cases h
    · rename_i s4 h4
      obtain ⟨f4, n4, r4⟩ := setSuffixLink_frame h4
      cases h
      refine ⟨⟨?_, ?_, ?_⟩, ?_, ?_⟩
      · simp [f4.text, f3.text, f2.text, f1.text]
      · simp [f4.loopI, f3.loopI, f2.loopI, f1.loopI]
      · simp [f4.pc, f3.pc, f2.pc, f1.pc]
      · simp [n4, n3, n2, n1]; ring
      · simp [r4, r3, r2, r1]
  · cases h
    refine ⟨⟨?_, ?_, ?_⟩, ?_, ?_⟩
    · simp [f3.text, f2.text, f1.text]
    · simp [f3.loopI, f2.loopI, f1.loopI]
    · simp [f3.pc, f2.pc, f1.pc]
    · simp [n3, n2, n1]; ring
    · simp [r3, r2, r1]

/-- What an iteration of the inner loop does to the counters: it creates at most two
nodes, and only when it also takes one pending suffix off the count. -/
theorem innerBody_frame {sem : LoopVar} {s s' : BuildState} {flow : Flow}
    (h : innerBody sem s = .ok (s', flow)) :
    Frame s s' ∧ s.st.nodeCount ≤ s'.st.nodeCount ∧
      s'.st.nodeCount + 2 * s'.remainingSuffixCount ≤
        s.st.nodeCount + 2 * s.remainingSuffixCount ∧
      s.remainingSuffixCount - 1 ≤ s'.remainingSuffixCount := by
  unfold innerBody at h
  simp only [bind, Except.bind, pure, Except.pure] at h
  generalize hs0 : (if s.activeLength = 0 then { s with activeEdge := s.i } else s) = s0 at h
  have f0 : Frame s s0 ∧ s0.st.nodeCount = s.st.nodeCount ∧
      s0.remainingSuffixCount = s.remainingSuffixCount := by
    subst hs0
    split <;> exact ⟨⟨rfl, rfl, rfl⟩, rfl, rfl⟩
  obtain ⟨⟨ft, fl, fp⟩, fn, fr⟩ := f0
  split at h
  · cases h
  split at h
  · cases h
  split at h
  · cases h
  · -- no child: a leaf is added
    split at h
    · cases h
    rename_i s1 h1
    obtain ⟨g1, n1, r1⟩ := addLeaf_frame h1
    split at h
    · cases h
    rename_i s2 h2
    obtain ⟨g2, n2, r2⟩ := advance_frame h2
    cases h
    refine ⟨⟨?_, ?_, ?_⟩, ?_, ?_, ?_⟩
    · rw [g2.text, g1.text, ft]
    · rw [g2.loopI, g1.loopI, fl]
    · rw [g2.pc, g1.pc, fp]
    · rw [n2, n1, fn]; omega
    · rw [n2, n1, fn, r2, r1, fr]; omega
    · rw [r2, r1, fr]
  · -- a child exists
    split at h
    · cases h
    rename_i sw hw
    obtain ⟨s1, w⟩ := sw
    obtain ⟨g1, n1, r1⟩ := walkDown_frame hw
    simp only at h
    split at h
    · -- walked down
      cases h
      refine ⟨⟨?_, ?_, ?_⟩, ?_, ?_, ?_⟩
      · rw [g1.text, ft]
      · rw [g1.loopI, fl]
      · rw [g1.pc, fp]
      · rw [n1, fn]
      · rw [n1, fn, r1, fr]
      · rw [r1, fr]; omega
    · split at h
      · cases h
      split at h
      · cases h
      split at h
      · cases h
      split at h
      · cases h
      split at h
      · -- the next byte is on the edge already: break
        split at h
        · split at h
          · cases h
          rename_i s2 h2
          obtain ⟨g2, n2, r2⟩ := linkPending_frame h2
          cases h
          refine ⟨⟨?_, ?_, ?_⟩, ?_, ?_, ?_⟩
          · show s2.st.text = s.st.text
            rw [g2.text, g1.text, ft]
          · show s2.st.loopI = s.st.loopI
            rw [g2.loopI, g1.loopI, fl]
          · show s2.pc = s.pc
            rw [g2.pc, g1.pc, fp]
          · show s.st.nodeCount ≤ s2.st.nodeCount
            rw [n2, n1, fn]
          · show s2.st.nodeCount + 2 * s2.remainingSuffixCount ≤ _
            rw [n2, n1, fn, r2, r1, fr]
          · show _ ≤ s2.remainingSuffixCount
            rw [r2, r1, fr]; omega
        · cases h
          refine ⟨⟨?_, ?_, ?_⟩, ?_, ?_, ?_⟩
          · show s1.st.text = s.st.text
            rw [g1.text, ft]
          · show s1.st.loopI = s.st.loopI
            rw [g1.loopI, fl]
          · show s1.pc = s.pc
            rw [g1.pc, fp]
          · show s.st.nodeCount ≤ s1.st.nodeCount
            rw [n1, fn]
          · show s1.st.nodeCount + 2 * s1.remainingSuffixCount ≤ _
            rw [n1, fn, r1, fr]
          · show _ ≤ s1.remainingSuffixCount
            rw [r1, fr]; omega
      · -- the edge is split
        split at h
        · cases h
        rename_i s2 h2
        obtain ⟨g2, n2, r2⟩ := splitEdge_frame h2
        split at h
        · cases h
        rename_i s3 h3
        obtain ⟨g3, n3, r3⟩ := advance_frame h3
        cases h
        refine ⟨⟨?_, ?_, ?_⟩, ?_, ?_, ?_⟩
        · rw [g3.text, g2.text, g1.text, ft]
        · rw [g3.loopI, g2.loopI, g1.loopI, fl]
        · rw [g3.pc, g2.pc, g1.pc, fp]
        · rw [n3, n2, n1, fn]; omega
        · rw [n3, n2, n1, fn, r3, r2, r1, fr]; omega
        · rw [r3, r2, r1, fr]

theorem CountInv_step {sem : LoopVar} {n : Int} {s s' : BuildState} (hi : CountInv n s)
    (h : s.step sem = .ok s') : CountInv n s' := by
  obtain ⟨hn, hr, hpc⟩ := hi
  unfold BuildState.step at h
  cases hp : s.pc with
  | outer =>
    simp only [hp] at h hpc
    simp only [BuildState.i] at h hpc
    split at h
    · rename_i hlt
      cases h
      refine ⟨hn, by show 0 ≤ s.remainingSuffixCount + 1; omega, ?_⟩
      show s.st.nodeCount + 2 * (s.remainingSuffixCount + 1) ≤ 2 * (s.st.loopI + 1) ∧
        s.st.loopI < n
      omega
    · cases h
      refine ⟨hn, hr, ?_⟩
      show s.st.nodeCount ≤ 2 * n
      omega
  | inner =>
    simp only [hp] at h hpc
    simp only [BuildState.i] at hpc
    split at h
    · rename_i hpos
      simp only [bind, Except.bind, pure, Except.pure] at h
      split at h
      · cases h
      rename_i v hv
      obtain ⟨s1, flow⟩ := v
      obtain ⟨⟨ft, fl, fp⟩, hmono, hle, hrem⟩ := innerBody_frame hv
      cases flow with
      | next =>
        cases h
        refine ⟨by rw [ft]; exact hn, by show 0 ≤ s1.remainingSuffixCount; omega, ?_⟩
        show (match s1.pc with
          | .outer => s1.st.nodeCount + 2 * s1.remainingSuffixCount ≤ 2 * s1.i ∧ s1.i ≤ n
          | .inner => s1.st.nodeCount + 2 * s1.remainingSuffixCount ≤ 2 * (s1.i + 1) ∧ s1.i < n
          | .done => s1.st.nodeCount ≤ 2 * n)
        rw [fp, hp]
        show s1.st.nodeCount + 2 * s1.remainingSuffixCount ≤ 2 * (s1.st.loopI + 1) ∧
          s1.st.loopI < n
        rw [fl]
        omega
      | brk =>
        cases h
        refine ⟨by show ((s1.st.text.length : Int) = n); rw [ft]; exact hn,
          by show 0 ≤ s1.remainingSuffixCount; omega, ?_⟩
        show s1.st.nodeCount + 2 * s1.remainingSuffixCount ≤ 2 * (s1.st.loopI + 1) ∧
          s1.st.loopI + 1 ≤ n
        rw [fl]
        omega
    · cases h
      refine ⟨hn, hr, ?_⟩
      show s.st.nodeCount + 2 * s.remainingSuffixCount ≤ 2 * (s.st.loopI + 1) ∧
        s.st.loopI + 1 ≤ n
      omega
  | done =>
    simp only [hp] at h hpc
    cases h
    refine ⟨hn, hr, ?_⟩
    rw [hp]
    exact hpc

theorem CountInv_steps {sem : LoopVar} {n : Int} (k : Nat) {s s' : BuildState}
    (hi : CountInv n s) (h : BuildState.steps sem k s = .ok s') : CountInv n s' := by
  induction k generalizing s with
  | zero =>
    cases h
    exact hi
  | succ k ih =>
    simp only [BuildState.steps, bind, Except.bind] at h
    split at h
    · cases h
    · rename_i s1 h1
      exact ih (CountInv_step hi h1) h

theorem CountInv_bound {n : Int} {s : BuildState} (hi : CountInv n s) :
    s.st.nodeCount ≤ 2 * n := by
  obtain ⟨_, hr, hpc⟩ := hi
  cases hp : s.pc with
  | outer => simp only [hp] at hpc; omega
  | inner => simp only [hp] at hpc; omega
  | done => simp only [hp] at hpc; exact hpc

theorem CountInv_init (T : List UInt8) :
    CountInv ((T.length : Int) + 1) (starState (T ++ [sentinel]) []) := by
  refine ⟨by simp [starState, starTree], by simp [starState], ?_⟩
  simp [starState, starTree, BuildState.i]
  omega

/-! ## Building and querying concrete texts -/

theorem BuildTrace_nodup (sem : LoopVar) (T : List UInt8) (h : (T ++ [sentinel]).Nodup) :
    BuildTrace sem (3 * (T.length + 1) + 1) (NewSuffixTree T) =
      .ok (doneState (T ++ [sentinel])) := by
  have h1 := steps_star sem (T ++ [sentinel]) [] (by simpa using h)
  simp only [List.nil_append, List.length_append, List.length_singleton] at h1
  rw [BuildTrace_add]
  simp only [BuildTrace, init_NewSuffixTree, bind, Except.bind, h1]
  simp [BuildState.steps, BuildState.step, starState, starTree, BuildState.i, bind, Except.bind,
    pure, Except.pure, doneState]

theorem buildAndQuery_of_ok {sem : LoopVar} {fuel : Nat} {T P : List UInt8} {t : SuffixTree}
    (h : Build sem fuel (NewSuffixTree T) = some (.ok t)) :
    buildAndQuery sem fuel T P = Contains sem fuel t P := by
  simp [buildAndQuery, h]

theorem buildAndQuery_of_fault {sem : LoopVar} {fuel : Nat} {T : List UInt8} {f : Fault}
    (h : Build sem fuel (NewSuffixTree T) = some (.error f)) (P : List UInt8) (j : Nat) :
    buildAndQuery sem (fuel + j) T P = some (.error f) := by
  simp [buildAndQuery, Build_mono h (Nat.le_add_right fuel j)]

theorem buildAndQuery_ne_of_eq {sem : LoopVar} {k : Nat} {T P : List UInt8}
    {r r' : Except Fault Bool} (h : buildAndQuery sem k T P = some r) (hr : r ≠ r')
    (fuel : Nat) : buildAndQuery sem fuel T P ≠ some r' := by
  intro h'
  exact hr (buildAndQuery_unique h h')

theorem Build_banana (sem : LoopVar) :
    Build sem 20 (NewSuffixTree (ascii "banana")) = some (.error .nilDeref) := by
  cases sem <;> rfl

theorem Build_mississippi (sem : LoopVar) :
    Build sem 20 (NewSuffixTree (ascii "mississippi")) = some (.error .nilDeref) := by
  cases sem <;> rfl

theorem Build_aaaa (sem : LoopVar) :
    Build sem 20 (NewSuffixTree (ascii "aaaa")) = some (.error .nilDeref) := by
  cases sem <;> rfl

theorem Build_ab (sem : LoopVar) :
    Build sem 10 (NewSuffixTree (ascii "ab")) =
      some (.ok (starTree (ascii "ab" ++ [sentinel]) (ascii "ab" ++ [sentinel]))) :=
  Build_nodup sem (ascii "ab") (by decide)

theorem Build_abc (sem : LoopVar) :
    Build sem 13 (NewSuffixTree (ascii "abc")) =
      some (.ok (starTree (ascii "abc" ++ [sentinel]) (ascii "abc" ++ [sentinel]))) :=
  Build_nodup sem (ascii "abc") (by decide)

theorem Build_a (sem : LoopVar) :
    Build sem 7 (NewSuffixTree (ascii "a")) =
      some (.ok (starTree (ascii "a" ++ [sentinel]) (ascii "a" ++ [sentinel]))) :=
  Build_nodup sem (ascii "a") (by decide)

theorem query_ab_ab :
    buildAndQuery .perIteration 10 (ascii "ab") (ascii "ab") = some (.ok false) ∧
    buildAndQuery .shared 10 (ascii "ab") (ascii "ab") = some (.error .sliceOutOfRange) := by
  constructor
  · rw [buildAndQuery_of_ok (Build_ab _)]; rfl
  · rw [buildAndQuery_of_ok (Build_ab _)]; rfl

theorem query_abc_bc :
    buildAndQuery .perIteration 13 (ascii "abc") ((ascii "abc").drop 1) = some (.ok false) ∧
    buildAndQuery .shared 13 (ascii "abc") ((ascii "abc").drop 1) =
      some (.error .sliceOutOfRange) := by
  constructor
  · rw [buildAndQuery_of_ok (Build_abc _)]; rfl
  · rw [buildAndQuery_of_ok (Build_abc _)]; rfl

theorem query_a_suffix :
    buildAndQuery .perIteration 7 (ascii "a") ((ascii "a" ++ [sentinel]).drop 0) =
      some (.ok false) ∧
    buildAndQuery .shared 7 (ascii "a") ((ascii "a" ++ [sentinel]).drop 0) =
      some (.error .sliceOutOfRange) := by
  constructor
  · rw [buildAndQuery_of_ok (Build_a _)]; rfl
  · rw [buildAndQuery_of_ok (Build_a _)]; rfl

/-- With a shared loop variable every `start` taken as `&i` reads `len(text)` once `Build`
has returned: the edge of the only leaf of the empty input is then empty, and a query whose
first byte hangs under the root of the tree of "a" panics on the slice `text[2:1]`. -/
theorem shared_start_follows_counter :
    edgeLabel .shared emptyTextTree 1 = .ok [] ∧
    buildAndQuery .shared 7 (ascii "a") (ascii "ab") = some (.error .sliceOutOfRange) := by
  constructor
  · rfl
  · rw [buildAndQuery_of_ok (Build_a _)]; rfl

/-! ## The shape of the star -/

theorem starChildren_keys (j : Nat) (pre : List UInt8) :
    (starChildren j pre).map (fun p => p.1) = pre := by
  induction pre generalizing j with
  | nil => rfl
  | cons b pre ih => simp [starChildren, ih]

theorem starChildren_length (j : Nat) (pre : List UInt8) :
    (starChildren j pre).length = pre.length := by
  induction pre generalizing j with
  | nil => rfl
  | cons b pre ih => simp [starChildren, ih]

/-- Every entry of the children map of the star's root leads to a leaf of the star. -/
theorem mapGet_starChildren_lt {pre : List UInt8} {c : UInt8} {ch : Nat} (j : Nat)
    (h : mapGet (starChildren j pre) c = some ch) :
    ∃ k, k < pre.length ∧ ch = j + k + 1 ∧ pre[k]? = some c := by
  induction pre generalizing j with
  | nil => simp [starChildren, mapGet] at h
  | cons b pre ih =>
    simp only [starChildren, mapGet] at h
    by_cases hb : b = c
    · rw [if_pos hb] at h
      exact ⟨0, by simp, by simpa using (Option.some.inj h).symm, by simp [hb]⟩
    · rw [if_neg hb] at h
      obtain ⟨k, hk, hc, hg⟩ := ih (j + 1) h
      exact ⟨k + 1, by simpa using hk, by omega, by simpa using hg⟩

/-! ## Leaf ends -/

/-- On an input without sentinel and repeated byte the leaf of phase `k` keeps the end `k`
in the tree that `Build` returns. -/
theorem leaf_end_of_star (sem : LoopVar) (T : List UInt8) (hs : sentinel ∉ T) (hn : T.Nodup)
    (k : Nat) (hk : k < T.length) :
    (Build sem (3 * (T.length + 1) + 1) (NewSuffixTree T)).map
      (fun r => r.bind (fun t => (getNode t.nodes (some (k + 1))).map (fun nd => nd.end_))) =
        some (.ok (.cell k)) := by
  rw [Build_nodup sem T (nodup_append_sentinel hs hn)]
  have hk2 : k < (T ++ [sentinel]).length := by simp; omega
  simp only [Option.map, Except.bind, starTree, getNode_starNodes_leaf hk2]
  rfl

/-! ## `Contains` follows whole edges -/

theorem Path.append {sem : LoopVar} {st : SuffixTree} {p q q' : Option Nat}
    {w w' : List UInt8} (h : Path sem st p w q) (h' : Path sem st q w' q') :
    Path sem st p (w ++ w') q' := by
  induction h with
  | nil p => simpa using h'
  | cons h1 h2 h3 _ ih =>
    rw [List.append_assoc]
    exact Path.cons h1 h2 h3 (ih h')

/-- In a tree keyed by first bytes, a path whose label starts with the byte `c` starts with
the edge to the child stored under `c`. -/
theorem Path.first_edge {sem : LoopVar} {st : SuffixTree} (hw : KeyedByFirstByte sem st)
    {w0 : List UInt8} {p q : Option Nat} (hp : Path sem st st.root w0 p)
    {c : UInt8} {r : List UInt8} (h : Path sem st p (c :: r) q) :
    ∃ nd ch e r', getNode st.nodes p = .ok nd ∧ mapGet nd.children c = some ch ∧
      edgeLabel sem st ch = .ok e ∧ e.head? = some c ∧ c :: r = e ++ r' ∧
      Path sem st (some ch) r' q := by
  generalize hl : c :: r = l at h
  cases h with
  | nil => cases hl
  | cons h1 h2 h3 h4 =>
    rename_i nd c' ch e r'
    obtain ⟨e', he', hh⟩ := hw w0 p nd c' ch hp h1 h2
    rw [h3] at he'
    cases he'
    have hc : c' = c := by
      cases e with
      | nil => simp at hh
      | cons x e =>
        simp only [List.head?_cons, Option.some.injEq] at hh
        simp only [List.cons_append, List.cons.injEq] at hl
        rw [← hh, hl.1]
    subst hc
    exact ⟨nd, ch, e, r', h1, h2, h3, hh, rfl, h4⟩

theorem edgeLabel_ok_getNode {sem : LoopVar} {st : SuffixTree} {ch : Nat} {e : List UInt8}
    (h : edgeLabel sem st ch = .ok e) : ∃ nd, getNode st.nodes (some ch) = .ok nd := by
  unfold edgeLabel at h
  simp only [bind, Except.bind] at h
  split at h
  · cases h
  · exact ⟨_, by assumption⟩

theorem containsLoop_done (sem : LoopVar) (P : List UInt8) (fuel : Nat) (s : ContainsState)
    (h : ¬ s.i < P.length) : containsLoop sem P fuel s = (s.st, some (.ok true)) := by
  cases fuel <;> simp [containsLoop, h]

/-- The loop of `Contains` in a tree keyed by first bytes, started at a node of the tree with
enough fuel for the bytes that are left: it returns true exactly when the rest of the
pattern is the label of a path from that node, and it returns a boolean whenever the node
can be dereferenced. -/
theorem containsLoop_path {sem : LoopVar} {st : SuffixTree} (hw : KeyedByFirstByte sem st)
    (P : List UInt8) (fuel : Nat) :
    ∀ (s : ContainsState) (w0 : List UInt8), s.st = st → Path sem st st.root w0 s.node →
      s.i ≤ P.length → P.length - s.i ≤ fuel →
      ((containsLoop sem P fuel s).2 = some (.ok true) ↔
        ∃ q, Path sem st s.node (P.drop s.i) q) ∧
      ((∃ nd, getNode st.nodes s.node = .ok nd) →
        ∃ b, (containsLoop sem P fuel s).2 = some (.ok b)) := by
  induction fuel with
  | zero =>
    intro s w0 hst hp hle hf
    have hi : ¬ s.i < P.length := by omega
    have hd : P.drop s.i = [] := List.drop_eq_nil_of_le (by omega)
    rw [containsLoop_done sem P 0 s hi, hd]
    exact ⟨⟨fun _ => ⟨_, Path.nil _⟩, fun _ => rfl⟩, fun _ => ⟨true, rfl⟩⟩
  | succ fuel ih =>
    intro s w0 hst hp hle hf
    subst hst
    by_cases hi : s.i < P.length
    · have hd : P.drop s.i = P.getD s.i 0 :: P.drop (s.i + 1) := by
        rw [List.drop_eq_getElem_cons hi]
        congr 1
        simp [List.getD_eq_getElem?_getD, List.getElem?_eq_getElem hi]
      rw [containsLoop, if_pos hi]
      simp only [ContainsState.step, bind, Except.bind, pure, Except.pure]
      cases hg : getNode s.st.nodes s.node with
      | error f =>
        dsimp only
        refine ⟨Iff.intro (fun h => by cases h) ?_, fun ⟨nd, hnd⟩ => by cases hnd⟩
        rintro ⟨q, hq⟩
        rw [hd] at hq
        obtain ⟨nd, _, _, _, h1, _⟩ := Path.first_edge hw hp hq
        rw [hg] at h1
        cases h1
      | ok nd =>
        dsimp only
        cases hm : mapGet nd.children (P.getD s.i 0) with
        | none =>
          dsimp only
          refine ⟨Iff.intro (fun h => by cases h) ?_, fun _ => ⟨false, rfl⟩⟩
          rintro ⟨q, hq⟩
          rw [hd] at hq
          obtain ⟨nd', _, _, _, h1, h2, _⟩ := Path.first_edge hw hp hq
          rw [hg] at h1
          cases h1
          rw [hm] at h2
          cases h2
        | some ch =>
          obtain ⟨e, he, hh⟩ := hw w0 s.node nd _ ch hp hg hm
          have hne : 1 ≤ e.length := by
            cases e with
            | nil => simp at hh
            | cons x e => simp
          simp only [he]
          by_cases hc : (P.drop s.i).length ≥ e.length ∧ (P.drop s.i).take e.length = e
          · rw [if_pos hc]
            dsimp only
            have hlen : (P.drop s.i).length = P.length - s.i := List.length_drop _ _
            have hsplit : P.drop s.i = e ++ P.drop (s.i + e.length) := by
              have := List.take_append_drop e.length (P.drop s.i)
              rw [hc.2, List.drop_drop] at this
              simpa [Nat.add_comm] using this.symm
            have hp' : Path sem s.st s.st.root (w0 ++ e) (some ch) :=
              Path.append hp (by simpa using Path.cons hg hm he (Path.nil _))
            obtain ⟨ih1, ih2⟩ := ih { s with i := s.i + e.length, node := some ch } (w0 ++ e)
              rfl hp' (by show s.i + e.length ≤ P.length; omega)
              (by show P.length - (s.i + e.length) ≤ fuel; omega)
            refine ⟨?_, fun _ => ih2 (edgeLabel_ok_getNode he)⟩
            rw [ih1]
            constructor
            · rintro ⟨q, hq⟩
              refine ⟨q, ?_⟩
              rw [hsplit]
              exact Path.cons hg hm he hq
            · rintro ⟨q, hq⟩
              rw [hd] at hq
              obtain ⟨nd', ch', e', r', h1, h2, h3, _, h5, h6⟩ := Path.first_edge hw hp hq
              rw [hg] at h1
              cases h1
              rw [hm] at h2
              cases h2
              rw [he] at h3
              cases h3
              rw [← hd, hsplit] at h5
              have := List.append_cancel_left h5
              exact ⟨q, by simpa [this] using h6⟩
          · rw [if_neg hc]
            dsimp only
            refine ⟨Iff.intro (fun h => by cases h) ?_, fun _ => ⟨false, rfl⟩⟩
            rintro ⟨q, hq⟩
            rw [hd] at hq
            obtain ⟨nd', ch', e', r', h1, h2, h3, _, h5, _⟩ := Path.first_edge hw hp hq
            rw [hg] at h1
            cases h1
            rw [hm] at h2
            cases h2
            rw [he] at h3
            cases h3
            exfalso
            apply hc
            rw [hd, h5]
            simp
    · have hd : P.drop s.i = [] := List.drop_eq_nil_of_le (by omega)
      rw [containsLoop_done sem P _ s hi, hd]
      exact ⟨⟨fun _ => ⟨_, Path.nil _⟩, fun _ => rfl⟩, fun _ => ⟨true, rfl⟩⟩

theorem getNode_some_iff {nodes : List Node} {a : Nat} {nd : Node} :
    getNode nodes (some a) = .ok nd ↔ nodes[a]? = some nd := by
  unfold getNode
  cases h : nodes[a]? with
  | none => simp [h]
  | some x => simp [h]

theorem Path.source_ok {sem : LoopVar} {st : SuffixTree} {p q : Option Nat} {w : List UInt8}
    (h : Path sem st p w q) {nd : Node} (hq : getNode st.nodes q = .ok nd) :
    ∃ nd', getNode st.nodes p = .ok nd' := by
  cases h with
  | nil => exact ⟨nd, hq⟩
  | cons h1 _ _ _ => exact ⟨_, h1⟩

theorem KeyedHeap.keyed {sem : LoopVar} {st : SuffixTree} (h : KeyedHeap sem st) :
    KeyedByFirstByte sem st := by
  intro w p nd c ch _ hg hm
  cases p with
  | none => simp [getNode] at hg
  | some a => exact h a nd c ch (getNode_some_iff.1 hg) hm

/-- In a tree keyed by first bytes the label of a path fixes the path: a path that goes on
after the label `w` passes through the node that `w` leads to. -/
theorem Path.split {sem : LoopVar} {st : SuffixTree} (hw : KeyedByFirstByte sem st)
    {p0 p : Option Nat} {w : List UInt8} (h : Path sem st p0 w p) :
    ∀ {w0 : List UInt8} {r : List UInt8} {q : Option Nat}, Path sem st st.root w0 p0 →
      Path sem st p0 (w ++ r) q → Path sem st p r q := by
  induction h with
  | nil p => intro w0 r q _ h2; simpa using h2
  | cons h1 h2 h3 h4 ih =>
    rename_i p1 q1 nd c ch e r1
    intro w0 r q hp h5
    obtain ⟨e', he', hh⟩ := hw w0 p1 nd c ch hp h1 h2
    rw [h3] at he'
    cases he'
    cases e with
    | nil => simp at hh
    | cons x e =>
      simp only [List.head?_cons, Option.some.injEq] at hh
      subst hh
      rw [List.append_assoc, List.cons_append] at h5
      obtain ⟨nd', ch', e', r', g1, g2, g3, _, g5, g6⟩ := Path.first_edge hw hp h5
      rw [h1] at g1
      cases g1
      rw [h2] at g2
      cases g2
      rw [h3] at g3
      cases g3
      rw [← List.cons_append] at g5
      have := List.append_cancel_left g5
      subst this
      exact ih (Path.append hp (by simpa using Path.cons h1 h2 h3 (Path.nil _))) g6

theorem keyed_compressedTreeOfA (sem : LoopVar) : KeyedHeap sem compressedTreeOfA := by
  intro a nd c ch ha hm
  match a, ha with
  | 0, ha =>
    simp only [compressedTreeOfA, List.getElem?_cons_zero, Option.some.injEq] at ha
    subst ha
    simp only [mapGet] at hm
    split at hm
    · rename_i hc
      cases hm
      exact ⟨ascii "a$", by cases sem <;> rfl, by rw [← hc]; rfl⟩
    · split at hm
      · rename_i hc
        cases hm
        exact ⟨ascii "$", by cases sem <;> rfl, by rw [← hc]; rfl⟩
      · cases hm
  | 1, ha =>
    simp only [compressedTreeOfA, List.getElem?_cons_succ, List.getElem?_cons_zero,
      Option.some.injEq] at ha
    subst ha
    simp [mapGet] at hm
  | 2, ha =>
    simp only [compressedTreeOfA, List.getElem?_cons_succ, List.getElem?_cons_zero,
      Option.some.injEq] at ha
    subst ha
    simp [mapGet] at hm
  | n + 3, ha =>
    simp [compressedTreeOfA] at ha

/-- In the compressed suffix tree of "a" the whole edge "a$" is found and the pattern "a",
which stops inside that edge, is not. -/
theorem Contains_compressedTreeOfA (sem : LoopVar) :
    Contains sem 2 compressedTreeOfA (ascii "a$") = some (.ok true) ∧
    Contains sem 1 compressedTreeOfA (ascii "a") = some (.ok false) := by
  cases sem <;> exact ⟨rfl, rfl⟩

/-! ## The branches of the inner loop -/

/-- An iteration of the inner loop is its guards followed by the branch they select. -/
theorem innerBody_eq_branch (sem : LoopVar) (s : BuildState) :
    innerBody sem s = (innerBranch sem s >>= runBranch sem) := by
  unfold innerBody innerBranch
  simp only [bind, Except.bind, pure, Except.pure]
  generalize (if s.activeLength = 0 then { s with activeEdge := s.i } else s) = s0
  cases getNode s0.st.nodes s0.activeNode with
  | error f => rfl
  | ok an =>
    dsimp only
    cases byteAt s0.st.text s0.activeEdge with
    | error f => rfl
    | ok c =>
      dsimp only
      cases s0.activeNode with
      | none => rfl
      | some a =>
        cases mapGet an.children c with
        | none => rfl
        | some nx =>
          dsimp only
          cases walkDown sem s0 with
          | error f => rfl
          | ok v =>
            obtain ⟨s1, w⟩ := v
            dsimp only
            cases w with
            | true => rfl
            | false =>
              simp only [Bool.false_eq_true, if_false]
              cases getNode s1.st.nodes (some nx) with
              | error f => rfl
              | ok next =>
                dsimp only
                cases IntPtr.load sem s1.i next.start with
                | error f => rfl
                | ok b =>
                  dsimp only
                  cases byteAt s1.st.text (b + s1.activeLength) with
                  | error f => rfl
                  | ok x =>
                    dsimp only
                    cases byteAt s1.st.text s1.i with
                    | error f => rfl
                    | ok ci =>
                      dsimp only
                      by_cases hx : x = ci
                      · simp only [hx, if_true]
                        rfl
                      · simp only [hx, if_false]
                        rfl

theorem resetEdge_st (s : BuildState) : s.resetEdge.st = s.st := by
  unfold BuildState.resetEdge
  split <;> rfl

theorem resetEdge_activeNode (s : BuildState) : s.resetEdge.activeNode = s.activeNode := by
  unfold BuildState.resetEdge
  split <;> rfl

theorem resetEdge_activeLength (s : BuildState) :
    s.resetEdge.activeLength = s.activeLength := by
  unfold BuildState.resetEdge
  split <;> rfl

theorem resetEdge_lastNewNode (s : BuildState) : s.resetEdge.lastNewNode = s.lastNewNode := by
  unfold BuildState.resetEdge
  split <;> rfl

theorem resetEdge_rem (s : BuildState) :
    s.resetEdge.remainingSuffixCount = s.remainingSuffixCount := by
  unfold BuildState.resetEdge
  split <;> rfl

theorem resetEdge_pc (s : BuildState) : s.resetEdge.pc = s.pc := by
  unfold BuildState.resetEdge
  split <;> rfl

theorem resetEdge_activeEdge (s : BuildState) (h : s.activeLength = 0) :
    s.resetEdge.activeEdge = s.i := by
  unfold BuildState.resetEdge
  rw [if_pos h]

/-- What a call of `walkDown` that returns has read and done. -/
theorem walkDown_inv {sem : LoopVar} {s s1 : BuildState} {w : Bool}
    (h : walkDown sem s = .ok (s1, w)) :
    ∃ an c ch nd e b, getNode s.st.nodes s.activeNode = .ok an ∧
      byteAt s.st.text s.activeEdge = .ok c ∧ mapGet an.children c = some ch ∧
      getNode s.st.nodes (some ch) = .ok nd ∧ nd.end_.load sem s.i = .ok e ∧
      nd.start.load sem s.i = .ok b ∧
      ((w = false ∧ s.activeLength < e - b + 1 ∧ s1 = s) ∨
       (w = true ∧ e - b + 1 ≤ s.activeLength ∧
        s1 = { s with activeEdge := s.activeEdge + (e - b + 1)
                      activeLength := s.activeLength - (e - b + 1)
                      activeNode := some ch })) := by
  unfold walkDown at h
  simp only [bind, Except.bind, pure, Except.pure] at h
  cases h1 : getNode s.st.nodes s.activeNode with
  | error f => simp [h1] at h
  | ok an =>
    simp only [h1] at h
    cases h2 : byteAt s.st.text s.activeEdge with
    | error f => simp [h2] at h
    | ok c =>
      simp only [h2] at h
      cases h3 : mapGet an.children c with
      | none => simp [h3, getNode] at h
      | some ch =>
        simp only [h3] at h
        cases h4 : getNode s.st.nodes (some ch) with
        | error f => simp [h4] at h
        | ok nd =>
          simp only [h4] at h
          cases h5 : nd.end_.load sem s.i with
          | error f => simp [h5] at h
          | ok e =>
            simp only [h5] at h
            cases h6 : nd.start.load sem s.i with
            | error f => simp [h6] at h
            | ok b =>
              simp only [h6] at h
              refine ⟨an, c, ch, nd, e, b, rfl, rfl, h3, h4, h5, h6, ?_⟩
              by_cases hl : s.activeLength < e - b + 1
              · rw [if_pos hl] at h
                cases h
                exact Or.inl ⟨rfl, hl, rfl⟩
              · rw [if_neg hl] at h
                cases h
                exact Or.inr ⟨rfl, by omega, rfl⟩

/-- What the guards of an iteration have read when they select a branch. -/
theorem innerBranch_inv {sem : LoopVar} {s : BuildState} {br : Branch}
    (h : innerBranch sem s = .ok br) :
    ∃ a an c, s.activeNode = some a ∧ getNode s.st.nodes (some a) = .ok an ∧
      byteAt s.st.text s.resetEdge.activeEdge = .ok c ∧
      match br with
      | .leaf s0 a' c' => s0 = s.resetEdge ∧ a' = a ∧ c' = c ∧ mapGet an.children c = none
      | .walk s1 => ∃ nx, mapGet an.children c = some nx ∧
          walkDown sem s.resetEdge = .ok (s1, true)
      | .extend s1 => ∃ nx next b x, mapGet an.children c = some nx ∧
          walkDown sem s.resetEdge = .ok (s1, false) ∧
          getNode s1.st.nodes (some nx) = .ok next ∧ next.start.load sem s1.i = .ok b ∧
          byteAt s1.st.text (b + s1.activeLength) = .ok x ∧ byteAt s1.st.text s1.i = .ok x
      | .split s1 a' c' nx => a' = a ∧ c' = c ∧ mapGet an.children c = some nx ∧
          walkDown sem s.resetEdge = .ok (s1, false) ∧
          ∃ next b x ci, getNode s1.st.nodes (some nx) = .ok next ∧
            next.start.load sem s1.i = .ok b ∧
            byteAt s1.st.text (b + s1.activeLength) = .ok x ∧
            byteAt s1.st.text s1.i = .ok ci ∧ x ≠ ci := by
  unfold innerBranch at h
  simp only [bind, Except.bind, pure, Except.pure] at h
  generalize hs0 : (if s.activeLength = 0 then { s with activeEdge := s.i } else s) = s0 at h
  have hs0' : s0 = s.resetEdge := hs0.symm
  subst hs0'
  clear hs0
  rw [resetEdge_st, resetEdge_activeNode] at h
  cases h1 : getNode s.st.nodes s.activeNode with
  | error f => simp [h1] at h
  | ok an =>
    simp only [h1] at h
    cases h2 : byteAt s.st.text s.resetEdge.activeEdge with
    | error f => simp [h2] at h
    | ok c =>
      simp only [h2] at h
      cases ha : s.activeNode with
      | none => simp [ha] at h
      | some a =>
        rw [ha] at h1
        simp only [ha] at h
        refine ⟨a, an, c, rfl, h1, rfl, ?_⟩
        cases hm : mapGet an.children c with
        | none =>
          simp only [hm] at h
          cases h
          exact ⟨rfl, rfl, rfl, rfl⟩
        | some nx =>
          simp only [hm] at h
          cases hw : walkDown sem s.resetEdge with
          | error f => simp [hw] at h
          | ok v =>
            obtain ⟨s1, w⟩ := v
            simp only [hw] at h
            cases w with
            | true =>
              simp only [if_true] at h
              cases h
              exact ⟨nx, rfl, rfl⟩
            | false =>
              simp only [Bool.false_eq_true, if_false] at h
              cases g1 : getNode s1.st.nodes (some nx) with
              | error f => simp [g1] at h
              | ok next =>
                simp only [g1] at h
                cases g2 : IntPtr.load sem s1.i next.start with
                | error f => simp [g2] at h
                | ok b =>
                  simp only [g2] at h
                  cases g3 : byteAt s1.st.text (b + s1.activeLength) with
                  | error f => simp [g3] at h
                  | ok x =>
                    simp only [g3] at h
                    cases g4 : byteAt s1.st.text s1.i with
                    | error f => simp [g4] at h
                    | ok ci =>
                      simp only [g4] at h
                      by_cases hx : x = ci
                      · rw [if_pos hx] at h
                        cases h
                        subst hx
                        exact ⟨nx, next, b, x, rfl, rfl, g1, g2, g3, g4⟩
                      · rw [if_neg hx] at h
                        cases h
                        exact ⟨rfl, rfl, rfl, rfl, next, b, x, ci, g1, g2, g3, g4, hx⟩

/-! ## The edge-split branch is never taken -/

theorem byteAt_add_zero (text : List UInt8) (k : Int) : byteAt text (k + 0) = byteAt text k := by
  rw [Int.add_zero]

/-- Under the invariant the guards never select the edge-split branch: an edge is one byte
long (or, with a shared loop variable, at most one byte long), so an active point that stays
on it is at its first byte, which is the byte just read. -/
theorem Inv.no_split {sem : LoopVar} {s : BuildState} (hi : Inv sem s) (s1 : BuildState)
    (a : Nat) (c : UInt8) (nx : Nat) : innerBranch sem s ≠ .ok (.split s1 a c nx) := by
  intro h
  obtain ⟨a', an, c', ha, hg, hc, hbr⟩ := innerBranch_inv h
  obtain ⟨rfl, rfl, hm, hw, next, b, x, ci, g1, g2, g3, g4, hx⟩ := hbr
  obtain ⟨an2, c2, ch, nd, e, b2, w1, w2, w3, w4, w5, w6, hcase⟩ := walkDown_inv hw
  rw [resetEdge_st, resetEdge_activeNode, ha, hg] at w1
  cases w1
  rw [resetEdge_st, hc] at w2
  cases w2
  rw [hm] at w3
  cases w3
  rcases hcase with ⟨_, hlt, rfl⟩ | ⟨hf, _⟩
  swap
  · cases hf
  rw [resetEdge_st] at w4 g1 g3 g4
  have hnd : next = nd := by
    rw [w4] at g1
    exact (Except.ok.inj g1).symm
  subst hnd
  rw [resetEdge_activeLength] at hlt g3
  have hi2 : s.resetEdge.i = s.i := by
    unfold BuildState.i
    rw [resetEdge_st]
  rw [hi2] at w5 w6 g2 g4
  obtain ⟨hnx0, _⟩ := hi.1.children a an c nx (getNode_some_iff.1 hg) hm
  obtain ⟨k, hst, hen, hk0, hki, _⟩ := hi.1.leaves nx next (getNode_some_iff.1 w4) hnx0
  rw [hen] at w5
  rw [hst] at w6 g2
  have hl0 := hi.1.lenNonneg
  cases sem with
  | shared =>
    simp only [IntPtr.load, Except.ok.injEq] at w5 w6 g2
    subst w5 w6 g2
    have hz : s.activeLength = 0 := by omega
    rw [hz, Int.add_zero, g4] at g3
    exact hx (Except.ok.inj g3).symm
  | perIteration =>
    simp only [IntPtr.load, Except.ok.injEq] at w5 w6 g2
    subst w5 w6 g2
    have hz : s.activeLength = 0 := by omega
    obtain ⟨chn, k', hk1, hk2, hk3⟩ := (hi.2 rfl).key a an c nx (getNode_some_iff.1 hg) hm
    rw [getNode_some_iff.1 w4] at hk1
    cases hk1
    rw [hst] at hk2
    cases hk2
    rw [resetEdge_activeEdge s hz] at hc
    rw [hz, Int.add_zero, hk3] at g3
    rw [hc] at g4
    cases g3
    cases g4
    exact hx rfl

/-! ## The invariant is kept by every step -/

theorem mapGet_mapSet (m : List (UInt8 × Nat)) (c c' : UInt8) (v : Nat) :
    mapGet (mapSet m c v) c' = if c' = c then some v else mapGet m c' := by
  induction m with
  | nil =>
    simp only [mapSet, mapGet]
    by_cases h : c = c'
    · simp [h]
    · have h' : ¬ c' = c := fun e => h e.symm
      simp [h, h']
  | cons kv m ih =>
    obtain ⟨k, w⟩ := kv
    simp only [mapSet]
    by_cases hk : k = c
    · rw [if_pos hk]
      simp only [mapGet]
      by_cases h : k = c'
      · have : c' = c := by rw [← h, hk]
        simp [h, this]
      · have : ¬ c' = c := fun e => h (by rw [hk, e])
        simp [h, this]
    · rw [if_neg hk]
      simp only [mapGet]
      by_cases h : k = c'
      · have : ¬ c' = c := fun e => hk (by rw [h, e])
        simp [h, this]
      · simp [h, ih]

theorem heap_cases {N : List Node} {x y nd : Node} {a b : Nat} (ha : a < N.length)
    (h : ((N ++ [x]).set a y)[b]? = some nd) :
    (b = a ∧ nd = y) ∨ (b ≠ a ∧ b < N.length ∧ N[b]? = some nd) ∨ (b = N.length ∧ nd = x) := by
  by_cases hb : b = a
  · subst hb
    rw [List.getElem?_set_self (by simp; omega)] at h
    exact Or.inl ⟨rfl, (Option.some.inj h).symm⟩
  · rw [List.getElem?_set_ne (fun e => hb e.symm)] at h
    by_cases hl : b < N.length
    · rw [List.getElem?_append_left hl] at h
      exact Or.inr (Or.inl ⟨hb, hl, h⟩)
    · have hb2 : b = N.length := by
        by_contra hne
        rw [List.getElem?_eq_none (by simp; omega)] at h
        cases h
      subst hb2
      rw [List.getElem?_append_right (le_refl _)] at h
      simp at h
      exact Or.inr (Or.inr ⟨rfl, h.symm⟩)

theorem heap_get_self {N : List Node} {x y : Node} {a : Nat} (ha : a < N.length) :
    ((N ++ [x]).set a y)[a]? = some y := by
  rw [List.getElem?_set_self (by simp; omega)]

theorem heap_get_new {N : List Node} {x y : Node} {a : Nat} (ha : a < N.length) :
    ((N ++ [x]).set a y)[N.length]? = some x := by
  rw [List.getElem?_set_ne (by omega), List.getElem?_append_right (le_refl _)]
  simp

theorem heap_get_old {N : List Node} {x y nd : Node} {a b : Nat} (hb : b ≠ a)
    (h : N[b]? = some nd) : ((N ++ [x]).set a y)[b]? = some nd := by
  have hl : b < N.length := by
    by_contra hc
    rw [List.getElem?_eq_none (by omega)] at h
    cases h
  rw [List.getElem?_set_ne (fun e => hb e.symm), List.getElem?_append_left hl, h]

theorem getElem?_lt {N : List Node} {a : Nat} {nd : Node} (h : N[a]? = some nd) :
    a < N.length := by
  by_contra hc
  rw [List.getElem?_eq_none (by omega)] at h
  cases h

/-- Lines 64-71 when nothing is pending: the leaf is allocated and hung under the active
node. -/
theorem addLeaf_eq {s : BuildState} {a : Nat} {an : Node} (c : UInt8)
    (hg : getNode s.st.nodes (some a) = .ok an) (hl : s.lastNewNode = none) :
    addLeaf s a c = .ok
      { s with st := { s.st with
          nodeCount := s.st.nodeCount + 1
          nodes := (s.st.nodes ++ [NewNode (.loopI s.i) (.cell s.i)]).set a
            { an with children := mapSet an.children c s.st.nodes.length } } } := by
  have hg' := getNode_append_of_ok hg [NewNode (.loopI s.st.loopI) (.cell s.st.loopI)]
  simp [addLeaf, BuildState.incNodeCount, BuildState.alloc, BuildState.setChild,
    BuildState.setNode, BuildState.linkPending, BuildState.i, bind, Except.bind, pure,
    Except.pure, hg', hl]

/-- What `advance` does. -/
theorem advance_inv {s s' : BuildState} (h : advance s = .ok s') :
    s'.st = s.st ∧ s'.lastNewNode = s.lastNewNode ∧ s'.pc = s.pc ∧
      s'.remainingSuffixCount = s.remainingSuffixCount - 1 ∧
      ((s.activeNode = s.st.root ∧ 0 < s.activeLength ∧
          s'.activeLength = s.activeLength - 1 ∧ s'.activeNode = s.activeNode) ∨
       (s.activeNode ≠ s.st.root ∧ s'.activeLength = s.activeLength ∧
          s'.activeEdge = s.activeEdge ∧
          ∃ an, getNode s.st.nodes s.activeNode = .ok an ∧ s'.activeNode = an.suffixLink) ∨
       (s.activeNode = s.st.root ∧ ¬ 0 < s.activeLength ∧ s'.activeLength = s.activeLength ∧
          s'.activeEdge = s.activeEdge ∧ s'.activeNode = s.activeNode)) := by
  unfold advance at h
  simp only [bind, Except.bind, pure, Except.pure] at h
  split at h
  · rename_i hc
    cases h
    exact ⟨rfl, rfl, rfl, rfl, Or.inl ⟨hc.1, hc.2, rfl, rfl⟩⟩
  · rename_i hc
    split at h
    · rename_i hne
      split at h
      · cases h
      · rename_i an hg
        cases h
        exact ⟨rfl, rfl, rfl, rfl, Or.inr (Or.inl ⟨hne, rfl, rfl, an, hg, rfl⟩)⟩
    · rename_i hne
      cases h
      have hr : s.activeNode = s.st.root := by
        by_contra hx
        exact hne hx
      refine ⟨rfl, rfl, rfl, rfl, Or.inr (Or.inr ⟨hr, ?_, rfl, rfl, rfl⟩)⟩
      intro hp
      exact hc ⟨hr, hp⟩

theorem Shape.of_eq {s s' : BuildState} (h : Shape s) (hst : s'.st = s.st)
    (hl : s'.lastNewNode = s.lastNewNode) (ha : 0 ≤ s'.activeLength) (hpc : s'.pc = s.pc) :
    Shape s' := by
  have hi : s'.i = s.i := by unfold BuildState.i; rw [hst]
  refine ⟨?_, ?_, ?_, ?_, ?_, ?_, ha, ?_, ?_⟩
  · rw [hst]; exact h.root
  · rw [hst]; exact h.rootAlloc
  · rw [hl]; exact h.noPending
  · rw [hst]; exact h.noLink
  · rw [hst, hi]; exact h.leaves
  · rw [hst]; exact h.children
  · rw [hi]; exact h.iNonneg
  · rw [hst, hi, hpc]; exact h.inRange

theorem Shape.resetEdge_shape {s : BuildState} (h : Shape s) : Shape s.resetEdge :=
  h.of_eq (resetEdge_st s) (resetEdge_lastNewNode s)
    (by rw [resetEdge_activeLength]; exact h.lenNonneg) (resetEdge_pc s)

/-- The shape is kept when a leaf is hung under an allocated node. -/
theorem Shape.addLeaf_shape {s : BuildState} (h : Shape s) (hpc : s.pc = .inner) {a : Nat}
    {an : Node} (c : UInt8) (hg : getNode s.st.nodes (some a) = .ok an) :
    Shape { s with st := { s.st with
              nodeCount := s.st.nodeCount + 1
              nodes := (s.st.nodes ++ [NewNode (.loopI s.i) (.cell s.i)]).set a
                { an with children := mapSet an.children c s.st.nodes.length } } } := by
  have hga := getNode_some_iff.1 hg
  have ha : a < s.st.nodes.length := getElem?_lt hga
  refine ⟨h.root, ?_, h.noPending, ?_, ?_, ?_, h.lenNonneg, h.iNonneg, ?_⟩
  · show 0 < ((s.st.nodes ++ [NewNode (.loopI s.i) (.cell s.i)]).set a _).length
    simp
  · intro b nd hb
    rcases heap_cases ha hb with ⟨_, rfl⟩ | ⟨_, _, hold⟩ | ⟨_, rfl⟩
    · exact h.noLink a an hga
    · exact h.noLink b nd hold
    · rfl
  · intro b nd hb hb0
    rcases heap_cases ha hb with ⟨rfl, rfl⟩ | ⟨_, _, hold⟩ | ⟨_, rfl⟩
    · exact h.leaves b an hga hb0
    · exact h.leaves b nd hold hb0
    · exact ⟨s.i, rfl, rfl, h.iNonneg, le_refl _, h.inRange hpc⟩
  · intro b nd c' ch hb hm
    have hlen : ((s.st.nodes ++ [NewNode (.loopI s.i) (.cell s.i)]).set a
        { an with children := mapSet an.children c s.st.nodes.length }).length =
        s.st.nodes.length + 1 := by simp
    show ch ≠ 0 ∧ ch < ((s.st.nodes ++ [NewNode (.loopI s.i) (.cell s.i)]).set a _).length
    rw [hlen]
    rcases heap_cases ha hb with ⟨_, rfl⟩ | ⟨_, _, hold⟩ | ⟨_, rfl⟩
    · simp only [mapGet_mapSet] at hm
      split at hm
      · cases hm
        have := h.rootAlloc
        omega
      · have := h.children a an c' ch hga hm
        omega
    · have := h.children b nd c' ch hold hm
      omega
    · simp [NewNode, mapGet] at hm
  · exact h.inRange

/-- The key invariant is kept when a leaf for the current byte is hung under an allocated
node while the active length is 0. -/
theorem Keyed.addLeaf_keyed {s : BuildState} (h : Keyed s) {a : Nat} {an : Node} {c : UInt8}
    (hg : getNode s.st.nodes (some a) = .ok an) (hc : byteAt s.st.text s.i = .ok c)
    (hz : s.activeLength = 0) :
    Keyed { s with st := { s.st with
              nodeCount := s.st.nodeCount + 1
              nodes := (s.st.nodes ++ [NewNode (.loopI s.i) (.cell s.i)]).set a
                { an with children := mapSet an.children c s.st.nodes.length } } } := by
  have hga := getNode_some_iff.1 hg
  have ha : a < s.st.nodes.length := getElem?_lt hga
  have transfer : ∀ (ch : Nat) (chn : Node) (k : Int), s.st.nodes[ch]? = some chn →
      chn.start = .loopI k →
      ∃ chn', ((s.st.nodes ++ [NewNode (.loopI s.i) (.cell s.i)]).set a
        { an with children := mapSet an.children c s.st.nodes.length })[ch]? = some chn' ∧
        chn'.start = .loopI k := by
    intro ch chn k h1 h2
    by_cases hch : ch = a
    · subst hch
      rw [hga] at h1
      cases h1
      exact ⟨_, heap_get_self ha, h2⟩
    · exact ⟨chn, heap_get_old hch h1, h2⟩
  refine ⟨?_, Or.inl hz⟩
  intro b nd c' ch hb hm
  show ∃ chn k, ((s.st.nodes ++ [NewNode (.loopI s.i) (.cell s.i)]).set a _)[ch]? = some chn ∧
    chn.start = .loopI k ∧ byteAt s.st.text k = .ok c'
  rcases heap_cases ha hb with ⟨_, rfl⟩ | ⟨_, _, hold⟩ | ⟨_, rfl⟩
  · simp only [mapGet_mapSet] at hm
    split at hm
    · rename_i hcc
      cases hm
      subst hcc
      exact ⟨_, s.i, heap_get_new ha, rfl, hc⟩
    · obtain ⟨chn, k, h1, h2, h3⟩ := h.key a an c' ch hga hm
      obtain ⟨chn', g1, g2⟩ := transfer ch chn k h1 h2
      exact ⟨chn', k, g1, g2, h3⟩
  · obtain ⟨chn, k, h1, h2, h3⟩ := h.key b nd c' ch hold hm
    obtain ⟨chn', g1, g2⟩ := transfer ch chn k h1 h2
    exact ⟨chn', k, g1, g2, h3⟩
  · simp [NewNode, mapGet] at hm

theorem linkPending_none {s : BuildState} (h : s.lastNewNode = none) :
    s.linkPending = .ok s := by
  unfold BuildState.linkPending
  rw [h]
  rfl

theorem Keyed.resetEdge_keyed {s : BuildState} (h : Keyed s) : Keyed s.resetEdge := by
  refine ⟨?_, ?_⟩
  · rw [resetEdge_st]; exact h.key
  · rw [resetEdge_activeLength, resetEdge_st, resetEdge_activeNode]
    rcases h.active with hz | ⟨h1, hr⟩
    · exact Or.inl hz
    · refine Or.inr ⟨h1, ?_⟩
      have : s.resetEdge = s := by
        unfold BuildState.resetEdge
        rw [if_neg (by omega)]
      rw [this]
      exact hr

/-- An iteration of the inner loop keeps the invariant, creates at most one node, and creates
it only while taking a pending suffix off the count. -/
theorem Inv.innerBody {sem : LoopVar} {s s' : BuildState} {flow : Flow} (hi : Inv sem s)
    (hpc : s.pc = .inner) (h : innerBody sem s = .ok (s', flow)) :
    Inv sem s' ∧
      s'.st.nodeCount + s'.remainingSuffixCount ≤ s.st.nodeCount + s.remainingSuffixCount ∧
      s.st.nodeCount ≤ s'.st.nodeCount ∧ s'.st.nodeCount ≤ s.st.nodeCount + 1 := by
  rw [innerBody_eq_branch] at h
  cases hb : innerBranch sem s with
  | error f => simp [hb, bind, Except.bind] at h
  | ok br =>
    simp only [hb, bind, Except.bind] at h
    obtain ⟨a, an, c, ha, hg, hc, hbr⟩ := innerBranch_inv hb
    have hS0 : Shape s.resetEdge := hi.1.resetEdge_shape
    have hi0 : s.resetEdge.i = s.i := by unfold BuildState.i; rw [resetEdge_st]
    cases br with
    | leaf s0 a' c' =>
      obtain ⟨rfl, rfl, rfl, hm⟩ := hbr
      have hg0 : getNode s.resetEdge.st.nodes (some a') = .ok an := by rw [resetEdge_st]; exact hg
      have hl0 : s.resetEdge.lastNewNode = none := by
        rw [resetEdge_lastNewNode]; exact hi.1.noPending
      simp only [runBranch, bind, Except.bind, pure, Except.pure, addLeaf_eq c' hg0 hl0] at h
      split at h
      · cases h
      rename_i s2 h2
      cases h
      obtain ⟨a1, a2, a3, a4, a5⟩ := advance_inv h2
      have hSX := hS0.addLeaf_shape (by rw [resetEdge_pc]; exact hpc) c' hg0
      have hlen : 0 ≤ s'.activeLength := by
        have := hS0.lenNonneg
        rcases a5 with ⟨_, hp, e, _⟩ | ⟨_, e, _⟩ | ⟨_, _, e, _⟩
        · rw [e]
          change 0 < s.resetEdge.activeLength at hp
          show 0 ≤ s.resetEdge.activeLength - 1
          omega
        · rw [e]; exact this
        · rw [e]; exact this
      refine ⟨⟨hSX.of_eq a1 a2 hlen a3, ?_⟩, ?_, ?_, ?_⟩
      · intro hsem
        have hK := hi.2 hsem
        have hz : s.activeLength = 0 := by
          rcases hK.active with hz | ⟨h1, an2, c2, ch, k1, k2, k3⟩
          · exact hz
          · exfalso
            have : s.resetEdge = s := by
              unfold BuildState.resetEdge
              rw [if_neg (by omega)]
            rw [this] at hc
            rw [ha, hg] at k1
            cases k1
            rw [hc] at k2
            cases k2
            rw [hm] at k3
            cases k3
        have hc0 : byteAt s.resetEdge.st.text s.resetEdge.i = .ok c' := by
          rw [resetEdge_st, hi0, ← resetEdge_activeEdge s hz]
          exact hc
        have hKX := hK.resetEdge_keyed.addLeaf_keyed hg0 hc0 (by rw [resetEdge_activeLength]; exact hz)
        refine ⟨?_, Or.inl ?_⟩
        · rw [a1]; exact hKX.key
        · have hz0 : s.resetEdge.activeLength = 0 := by rw [resetEdge_activeLength]; exact hz
          rcases a5 with ⟨_, hp, _, _⟩ | ⟨_, e, _⟩ | ⟨_, _, e, _⟩
          · exfalso
            change 0 < s.resetEdge.activeLength at hp
            omega
          · rw [e]; exact hz0
          · rw [e]; exact hz0
      · rw [a1, a4]
        show s.resetEdge.st.nodeCount + 1 + (s.resetEdge.remainingSuffixCount - 1) ≤ _
        rw [resetEdge_st, resetEdge_rem]
        omega
      · rw [a1]
        show s.st.nodeCount ≤ s.resetEdge.st.nodeCount + 1
        rw [resetEdge_st]
        omega
      · rw [a1]
        show s.resetEdge.st.nodeCount + 1 ≤ _
        rw [resetEdge_st]
    | walk s1 =>
      obtain ⟨nx, hm, hw⟩ := hbr
      simp only [runBranch, pure, Except.pure] at h
      cases h
      obtain ⟨an2, c2, ch, nd, e, b, w1, w2, w3, w4, w5, w6, hcase⟩ := walkDown_inv hw
      rcases hcase with ⟨hf, _⟩ | ⟨_, hge, rfl⟩
      · cases hf
      rw [resetEdge_activeLength] at hge
      refine ⟨⟨hS0.of_eq rfl rfl ?_ rfl, ?_⟩, ?_, ?_, ?_⟩
      · show 0 ≤ s.resetEdge.activeLength - (e - b + 1)
        rw [resetEdge_activeLength]
        omega
      · intro hsem
        subst hsem
        have hK := hi.2 rfl
        refine ⟨?_, Or.inl ?_⟩
        · show ∀ (a : Nat) (nd : Node) (c : UInt8) (ch : Nat), s.resetEdge.st.nodes[a]? = some nd → _
          rw [resetEdge_st]
          exact hK.key
        · show s.resetEdge.activeLength - (e - b + 1) = 0
          rw [resetEdge_activeLength]
          have e1 : an2 = an := by
            rw [resetEdge_st, resetEdge_activeNode, ha, hg] at w1
            exact (Except.ok.inj w1).symm
          subst e1
          rw [resetEdge_st] at w4
          obtain ⟨hch0, _⟩ := hi.1.children a an2 c2 ch (getNode_some_iff.1 hg) w3
          obtain ⟨k, hst, hen, _⟩ := hi.1.leaves ch nd (getNode_some_iff.1 w4) hch0
          rw [hen] at w5
          rw [hst] at w6
          simp only [IntPtr.load, Except.ok.injEq] at w5 w6
          subst w5 w6
          rcases hK.active with hz | ⟨h1, _⟩ <;> omega
      · show s.resetEdge.st.nodeCount + s.resetEdge.remainingSuffixCount ≤ _
        rw [resetEdge_st, resetEdge_rem]
      · show s.st.nodeCount ≤ s.resetEdge.st.nodeCount
        rw [resetEdge_st]
      · show s.resetEdge.st.nodeCount ≤ _
        rw [resetEdge_st]
        omega
    | extend s1 =>
      obtain ⟨nx, next, b, x, hm, hw, g1, g2, g3, g4⟩ := hbr
      obtain ⟨an2, c2, ch, nd, e, b2, w1, w2, w3, w4, w5, w6, hcase⟩ := walkDown_inv hw
      rcases hcase with ⟨_, hlt, rfl⟩ | ⟨hf, _⟩
      swap
      · cases hf
      have hl0 : s.resetEdge.lastNewNode = none := by
        rw [resetEdge_lastNewNode]; exact hi.1.noPending
      simp only [runBranch, bind, Except.bind, pure, Except.pure, linkPending_none hl0] at h
      have h' : s' = { s.resetEdge with activeLength := s.resetEdge.activeLength + 1 } := by
        split at h
        · cases h; rfl
        · cases h; rfl
      subst h'
      rw [resetEdge_activeLength] at hlt
      refine ⟨⟨hS0.of_eq rfl rfl ?_ rfl, ?_⟩, ?_, ?_, ?_⟩
      · show 0 ≤ s.resetEdge.activeLength + 1
        have := hS0.lenNonneg
        omega
      · intro hsem
        subst hsem
        have hK := hi.2 rfl
        refine ⟨?_, Or.inr ⟨?_, an, c, nx, ?_, ?_, hm⟩⟩
        · show ∀ (a : Nat) (nd : Node) (c : UInt8) (ch : Nat), s.resetEdge.st.nodes[a]? = some nd → _
          rw [resetEdge_st]
          exact hK.key
        · show s.resetEdge.activeLength + 1 = 1
          rw [resetEdge_activeLength]
          have e1 : an2 = an := by
            rw [resetEdge_st, resetEdge_activeNode, ha, hg] at w1
            exact (Except.ok.inj w1).symm
          subst e1
          rw [resetEdge_st] at w4
          obtain ⟨hch0, _⟩ := hi.1.children a an2 c2 ch (getNode_some_iff.1 hg) w3
          obtain ⟨k, hst, hen, _⟩ := hi.1.leaves ch nd (getNode_some_iff.1 w4) hch0
          rw [hen] at w5
          rw [hst] at w6
          simp only [IntPtr.load, Except.ok.injEq] at w5 w6
          subst w5 w6
          have := hi.1.lenNonneg
          omega
        · show getNode s.resetEdge.st.nodes s.resetEdge.activeNode = .ok an
          rw [resetEdge_st, resetEdge_activeNode, ha]
          exact hg
        · show byteAt s.resetEdge.st.text s.resetEdge.activeEdge = .ok c
          rw [resetEdge_st]
          exact hc
      · show s.resetEdge.st.nodeCount + s.resetEdge.remainingSuffixCount ≤ _
        rw [resetEdge_st, resetEdge_rem]
      · show s.st.nodeCount ≤ s.resetEdge.st.nodeCount
        rw [resetEdge_st]
      · show s.resetEdge.st.nodeCount ≤ _
        rw [resetEdge_st]
        omega
    | split s1 a' c' nx => exact absurd hb (hi.no_split s1 a' c' nx)

theorem Inv.nextPhase {sem : LoopVar} {s : BuildState} (hi : Inv sem s) :
    Inv sem s.nextPhase := by
  obtain ⟨hS, hK⟩ := hi
  refine ⟨⟨hS.root, hS.rootAlloc, hS.noPending, hS.noLink, ?_, hS.children, hS.lenNonneg, ?_, ?_⟩,
    fun hsem => ⟨(hK hsem).key, (hK hsem).active⟩⟩
  · intro a nd ha ha0
    obtain ⟨k, h1, h2, h3, h4, h5⟩ := hS.leaves a nd ha ha0
    refine ⟨k, h1, h2, h3, ?_, h5⟩
    show k ≤ s.st.loopI + 1
    unfold BuildState.i at h4
    omega
  · show 0 ≤ s.st.loopI + 1
    have := hS.iNonneg
    unfold BuildState.i at this
    omega
  · intro h
    cases h

/-- Every step of `Build` keeps the invariant and the counter invariant, and creates at most
one node. -/
theorem Inv.step {sem : LoopVar} {s s' : BuildState} (hi : Inv sem s) (hc : CountOne s)
    (h : s.step sem = .ok s') :
    Inv sem s' ∧ CountOne s' ∧ s.st.nodeCount ≤ s'.st.nodeCount ∧
      s'.st.nodeCount ≤ s.st.nodeCount + 1 := by
  obtain ⟨hr, hcnt⟩ := hc
  obtain ⟨hS, hK⟩ := hi
  unfold BuildState.step at h
  cases hp : s.pc with
  | outer =>
    simp only [hp] at h
    simp only [phasesStarted, hp] at hcnt
    split at h
    · rename_i hlt
      cases h
      refine ⟨⟨⟨hS.root, hS.rootAlloc, rfl, hS.noLink, hS.leaves, hS.children, hS.lenNonneg,
        hS.iNonneg, fun _ => hlt⟩, fun hsem => ⟨(hK hsem).key, (hK hsem).active⟩⟩, ⟨?_, ?_⟩,
        le_refl _, ?_⟩
      · show 0 ≤ s.remainingSuffixCount + 1
        omega
      · show s.st.nodeCount + (s.remainingSuffixCount + 1) ≤ s.i + 1
        omega
      · show s.st.nodeCount ≤ s.st.nodeCount + 1
        omega
    · cases h
      refine ⟨⟨⟨hS.root, hS.rootAlloc, hS.noPending, hS.noLink, hS.leaves, hS.children,
        hS.lenNonneg, hS.iNonneg, fun h => by cases h⟩,
        fun hsem => ⟨(hK hsem).key, (hK hsem).active⟩⟩, ⟨hr, ?_⟩, le_refl _, ?_⟩
      · show s.st.nodeCount + s.remainingSuffixCount ≤ s.i
        exact hcnt
      · show s.st.nodeCount ≤ s.st.nodeCount + 1
        omega
  | inner =>
    simp only [hp] at h
    simp only [phasesStarted, hp] at hcnt
    split at h
    · rename_i hpos
      simp only [bind, Except.bind, pure, Except.pure] at h
      split at h
      · cases h
      rename_i v hv
      obtain ⟨s1, flow⟩ := v
      obtain ⟨⟨ft, fl, fp⟩, _, _, hrem⟩ := innerBody_frame hv
      obtain ⟨hI1, hle, hmono, hone⟩ := Inv.innerBody ⟨hS, hK⟩ hp hv
      have hi1 : s1.i = s.i := by unfold BuildState.i; exact fl
      cases flow with
      | next =>
        cases h
        refine ⟨hI1, ⟨by show 0 ≤ s1.remainingSuffixCount; omega, ?_⟩, hmono, hone⟩
        show s1.st.nodeCount + s1.remainingSuffixCount ≤ phasesStarted s1
        simp only [phasesStarted, fp, hp, hi1]
        omega
      | brk =>
        cases h
        refine ⟨hI1.nextPhase, ⟨?_, ?_⟩, hmono, hone⟩
        · show 0 ≤ s1.remainingSuffixCount
          omega
        · show s1.st.nodeCount + s1.remainingSuffixCount ≤ s1.st.loopI + 1
          unfold BuildState.i at hi1 hcnt
          omega
    · cases h
      refine ⟨Inv.nextPhase ⟨hS, hK⟩, ⟨hr, ?_⟩, le_refl _, ?_⟩
      · show s.st.nodeCount + s.remainingSuffixCount ≤ s.st.loopI + 1
        unfold BuildState.i at hcnt
        omega
      · show s.st.nodeCount ≤ s.st.nodeCount + 1
        omega
  | done =>
    simp only [hp] at h
    cases h
    exact ⟨⟨hS, hK⟩, ⟨hr, hcnt⟩, le_refl _, by omega⟩

/-- The state in which the outer loop is entered satisfies the invariants. -/
theorem Inv.init (sem : LoopVar) (T : List UInt8) :
    Inv sem (starState (T ++ [sentinel]) []) ∧ CountOne (starState (T ++ [sentinel]) []) := by
  refine ⟨⟨⟨rfl, by simp [starState, starTree, starNodes], rfl, ?_, ?_, ?_, le_refl _, le_refl _,
    fun h => by cases h⟩, fun _ => ⟨?_, Or.inl rfl⟩⟩, ⟨le_refl _, le_refl _⟩⟩
  · intro a nd ha
    match a, ha with
    | 0, ha =>
      simp [starState, starTree, starNodes] at ha
      rw [← ha]
    | n + 1, ha => simp [starState, starTree, starNodes] at ha
  · intro a nd ha ha0
    match a, ha with
    | 0, _ => exact absurd rfl ha0
    | n + 1, ha => simp [starState, starTree, starNodes] at ha
  · intro a nd c ch ha hm
    match a, ha with
    | 0, ha =>
      simp [starState, starTree, starNodes] at ha
      rw [← ha] at hm
      simp [starChildren, mapGet] at hm
    | n + 1, ha => simp [starState, starTree, starNodes] at ha
  · intro a nd c ch ha hm
    match a, ha with
    | 0, ha =>
      simp [starState, starTree, starNodes] at ha
      rw [← ha] at hm
      simp [starChildren, mapGet] at hm
    | n + 1, ha => simp [starState, starTree, starNodes] at ha

/-- The invariants hold in every state that `Build` reaches. -/
theorem Inv.reach {sem : LoopVar} {T : List UInt8} {k : Nat} {s : BuildState}
    (h : BuildTrace sem k (NewSuffixTree T) = .ok s) : Inv sem s ∧ CountOne s := by
  unfold BuildTrace at h
  rw [init_NewSuffixTree] at h
  simp only [bind, Except.bind] at h
  have key : ∀ (k : Nat) (s0 s : BuildState), Inv sem s0 ∧ CountOne s0 →
      BuildState.steps sem k s0 = .ok s → Inv sem s ∧ CountOne s := by
    intro k
    induction k with
    | zero =>
      intro s0 s h0 hs
      cases hs
      exact h0
    | succ k ih =>
      intro s0 s h0 hs
      simp only [BuildState.steps, bind, Except.bind] at hs
      split at hs
      · cases hs
      · rename_i s1 h1
        obtain ⟨g1, g2, _⟩ := Inv.step h0.1 h0.2 h1
        exact ih s1 s ⟨g1, g2⟩ hs
  exact key k _ s (Inv.init sem T) h

/-! ## What the invariants give -/

theorem byteAt_toNat {text : List UInt8} {k : Int} {c : UInt8} (h : byteAt text k = .ok c) :
    0 ≤ k ∧ text[k.toNat]? = some c := by
  unfold byteAt at h
  split at h
  · rename_i h0
    split at h
    · rename_i b hb
      cases h
      exact ⟨h0, hb⟩
    · cases h
  · cases h

/-- With a per-iteration loop variable the label of the edge to a leaf made in phase `k` is
the byte at position `k`. -/
theorem edgeLabel_leaf {st : SuffixTree} {ch : Nat} {nd : Node} {k : Int} {c : UInt8}
    (hn : st.nodes[ch]? = some nd) (hs : nd.start = .loopI k) (he : nd.end_ = .cell k)
    (hc : byteAt st.text k = .ok c) : edgeLabel .perIteration st ch = .ok [c] := by
  obtain ⟨h0, hg⟩ := byteAt_toNat hc
  have hk : ((k.toNat : Nat) : Int) = k := Int.toNat_of_nonneg h0
  have := sliceOf_single hg
  rw [hk] at this
  simp [edgeLabel, getNode_some_iff.2 hn, hs, he, IntPtr.load, bind, Except.bind, this]

/-- In every state that `Build` reaches with a per-iteration loop variable, the heap is keyed
by first bytes and every edge label is a single byte. -/
theorem reach_keyed {T : List UInt8} {k : Nat} {s : BuildState}
    (h : BuildTrace .perIteration k (NewSuffixTree T) = .ok s) {a : Nat} {nd : Node}
    {c : UInt8} {ch : Nat} (ha : s.st.nodes[a]? = some nd)
    (hm : mapGet nd.children c = some ch) :
    ∃ (chn : Node) (b : Int), s.st.nodes[ch]? = some chn ∧ chn.start = .loopI b ∧
      chn.end_ = .cell b ∧ byteAt s.st.text b = .ok c ∧
      edgeLabel .perIteration s.st ch = .ok [c] := by
  obtain ⟨⟨hS, hK⟩, _⟩ := Inv.reach h
  obtain ⟨chn, b, h1, h2, h3⟩ := (hK rfl).key a nd c ch ha hm
  obtain ⟨hch0, _⟩ := hS.children a nd c ch ha hm
  obtain ⟨b', g1, g2, _⟩ := hS.leaves ch chn h1 hch0
  rw [h2] at g1
  cases g1
  exact ⟨chn, b, h1, h2, g2, h3, edgeLabel_leaf h1 h2 g2 h3⟩

theorem Build_ok_trace {sem : LoopVar} {fuel : Nat} {st t : SuffixTree}
    (h : Build sem fuel st = some (.ok t)) :
    ∃ s, BuildTrace sem fuel st = .ok s ∧ s.pc = .done ∧ s.st = t := by
  unfold Build at h
  split at h
  · cases h
  · rename_i s hs
    split at h
    · rename_i hd
      cases h
      exact ⟨s, hs, hd, rfl⟩
    · cases h

/-- The text stored in the tree is not changed by `Build`. -/
theorem reach_text {sem : LoopVar} {T : List UInt8} {k : Nat} {s : BuildState}
    (h : BuildTrace sem k (NewSuffixTree T) = .ok s) : s.st.text = T ++ [sentinel] := by
  unfold BuildTrace at h
  rw [init_NewSuffixTree] at h
  simp only [bind, Except.bind] at h
  have key : ∀ (k : Nat) (s0 s : BuildState), BuildState.steps sem k s0 = .ok s →
      s.st.text = s0.st.text := by
    intro k
    induction k with
    | zero => intro s0 s hs; cases hs; rfl
    | succ k ih =>
      intro s0 s hs
      simp only [BuildState.steps, bind, Except.bind] at hs
      split at hs
      · cases hs
      · rename_i s1 h1
        rw [ih s1 s hs]
        unfold BuildState.step at h1
        cases hp : s0.pc with
        | outer =>
          simp only [hp] at h1
          split at h1 <;> (cases h1; rfl)
        | inner =>
          simp only [hp] at h1
          split at h1
          · simp only [bind, Except.bind, pure, Except.pure] at h1
            split at h1
            · cases h1
            rename_i v hv
            obtain ⟨s2, flow⟩ := v
            obtain ⟨⟨ft, _, _⟩, _⟩ := innerBody_frame hv
            cases flow <;> (cases h1; exact ft)
          · cases h1; rfl
        | done =>
          simp only [hp] at h1
          cases h1
          rfl
  exact key k _ s h

/-! ## A nil active node -/

theorem innerBody_nil {sem : LoopVar} {s : BuildState} (h : s.activeNode = none) :
    innerBody sem s = .error .nilDeref := by
  rw [innerBody_eq_branch]
  unfold innerBranch
  simp only [bind, Except.bind]
  have : (if s.activeLength = 0 then { s with activeEdge := s.i } else s).activeNode = none := by
    split <;> exact h
  rw [this]
  rfl

/-- An iteration of the inner loop with a pending suffix and a nil active node panics. -/
theorem step_nil {sem : LoopVar} {s : BuildState} (h : s.activeNode = none)
    (hpc : s.pc = .inner) (hr : 0 < s.remainingSuffixCount) :
    s.step sem = .error .nilDeref := by
  unfold BuildState.step
  simp only [hpc]
  rw [if_pos hr]
  simp [bind, Except.bind, innerBody_nil h]

/-- A phase that ends with a nil active node is followed, when there is another phase, by a
panic in its first iteration. -/
theorem steps_nil {sem : LoopVar} {s : BuildState} (h : s.activeNode = none)
    (hpc : s.pc = .inner) (hr : s.remainingSuffixCount = 0)
    (hi : s.i + 1 < (s.st.text.length : Int)) :
    BuildState.steps sem 3 s = .error .nilDeref := by
  have h1 : s.step sem = .ok s.nextPhase := by
    unfold BuildState.step
    simp only [hpc]
    rw [if_neg (by omega)]
    rfl
  have h2 : s.nextPhase.step sem = .ok { s.nextPhase with
      remainingSuffixCount := s.nextPhase.remainingSuffixCount + 1
      lastNewNode := none
      pc := .inner } := by
    unfold BuildState.step
    have : s.nextPhase.pc = .outer := rfl
    simp only [this]
    have hlt : s.nextPhase.i < (s.nextPhase.st.text.length : Int) := hi
    rw [if_pos hlt]
    rfl
  have h3 : BuildState.step sem { s.nextPhase with
      remainingSuffixCount := s.nextPhase.remainingSuffixCount + 1
      lastNewNode := none
      pc := .inner } = .error .nilDeref :=
    step_nil (by exact h) (by rfl) (by show 0 < s.remainingSuffixCount + 1; omega)
  simp only [BuildState.steps, bind, Except.bind, h1, h2]
  rw [h3]

theorem steps_error {sem : LoopVar} {s : BuildState} {j : Nat} {f : Fault}
    (h : BuildState.steps sem j s = .error f) (j' : Nat) :
    BuildState.steps sem (j + j') s = .error f := by
  rw [steps_add, h]
  rfl

/-! ## The run on a repeated byte, for both meanings of the loop variable -/

/-- Per-iteration loop variable: five steps after a phase meets a byte that already hangs
under the root, the active node is nil while a suffix is pending. -/
theorem steps_repeat_state (text pre : List UInt8) (b c : UInt8) (k : Nat)
    (hlen : (pre.length : Int) < (text.length : Int))
    (hlen2 : (pre.length : Int) + 1 < (text.length : Int))
    (hb : byteAt text (pre.length : Int) = .ok b)
    (hc : byteAt text ((pre.length : Int) + 1) = .ok c)
    (hk : k < pre.length) (htk : byteAt text (k : Int) = .ok b)
    (hm : mapGet (starChildren 0 pre) b = some (k + 1)) :
    ∃ s, BuildState.steps .perIteration 5 (starState text pre) = .ok s ∧
      s.activeNode = none ∧ s.pc = .inner ∧ 0 < s.remainingSuffixCount := by
  have hleaf := getNode_starNodes_leaf hk
  have hroot := getNode_starNodes_root pre
  have h5a : ∀ l', getNode (starNodes pre ++ l') (some (k + 1)) = .ok (leafAt k) :=
    fun l' => getNode_append_of_ok hleaf l'
  have h5b : ∀ l' x, getNode ((starNodes pre ++ l').set (k + 1) x) (some (k + 1)) = .ok x :=
    fun l' x => getNode_set_self (h5a l') x
  simp [BuildState.steps, BuildState.step, starState, starTree, BuildState.i, bind, Except.bind,
    pure, Except.pure, hlen, hlen2, innerBody, hb, hc, hm, walkDown, hleaf, hroot, h5a, h5b,
    getNode_none, leafAt, NewNode, IntPtr.load, htk, mapGet, addLeaf, BuildState.linkPending,
    BuildState.incNodeCount, BuildState.alloc, BuildState.setChild, BuildState.setNode, advance,
    BuildState.nextPhase]

/-- Shared loop variable: a phase that meets a byte already hanging under the root walks
into that leaf (its edge has length at most 0), hangs a node under it and ends with a nil
active node. -/
theorem steps_repeat_state_shared (text pre : List UInt8) (b c : UInt8) (k : Nat)
    (hlen : (pre.length : Int) < (text.length : Int))
    (hb : byteAt text (pre.length : Int) = .ok b)
    (hc : byteAt text ((k : Int) + 1) = .ok c)
    (hk : k < pre.length)
    (hm : mapGet (starChildren 0 pre) b = some (k + 1)) :
    ∃ s, BuildState.steps .shared 3 (starState text pre) = .ok s ∧
      s.activeNode = none ∧ s.pc = .inner ∧ s.remainingSuffixCount = 0 ∧
      s.st.loopI = pre.length ∧ s.st.text = text := by
  have hleaf := getNode_starNodes_leaf hk
  have hroot := getNode_starNodes_root pre
  have h5a : ∀ l', getNode (starNodes pre ++ l') (some (k + 1)) = .ok (leafAt k) :=
    fun l' => getNode_append_of_ok hleaf l'
  have h5b : ∀ l' x, getNode ((starNodes pre ++ l').set (k + 1) x) (some (k + 1)) = .ok x :=
    fun l' x => getNode_set_self (h5a l') x
  have hk' : ¬ ((0 : Int) < (k : Int) - (pre.length : Int) + 1) := by omega
  have e1 : (pre.length : Int) + ((k : Int) - (pre.length : Int) + 1) = (k : Int) + 1 := by omega
  by_cases hz : (0 : Int) - ((k : Int) - (pre.length : Int) + 1) = 0
  · have hc' : byteAt text (pre.length : Int) = .ok c := by
      have : (pre.length : Int) = (k : Int) + 1 := by omega
      rw [this]; exact hc
    simp [BuildState.steps, BuildState.step, starState, starTree, BuildState.i, bind, Except.bind,
      pure, Except.pure, hlen, innerBody, hb, hc, hc', hm, walkDown, hleaf, hroot, h5a, h5b,
      getNode_none, leafAt, NewNode, IntPtr.load, mapGet, addLeaf, BuildState.linkPending,
      BuildState.incNodeCount, BuildState.alloc, BuildState.setChild, BuildState.setNode, advance,
      BuildState.nextPhase, hk', e1, hz]
  · have hz' : ¬ (-1 + ((pre.length : Int) - (k : Int)) = 0) := by omega
    simp [BuildState.steps, BuildState.step, starState, starTree, BuildState.i, bind, Except.bind,
      pure, Except.pure, hlen, innerBody, hb, hc, hm, walkDown, hleaf, hroot, h5a, h5b,
      getNode_none, leafAt, NewNode, IntPtr.load, mapGet, addLeaf, BuildState.linkPending,
      BuildState.incNodeCount, BuildState.alloc, BuildState.setChild, BuildState.setNode, advance,
      BuildState.nextPhase, hk', e1, hz, hz']

theorem byteAt_lt {text : List UInt8} {k : Nat} (h : k < text.length) :
    ∃ c, byteAt text (k : Int) = .ok c :=
  ⟨text[k], byteAt_of_getElem? (List.getElem?_eq_getElem h)⟩

/-- A phase whose byte already hangs under the root is followed by a nil active node and,
within six steps, by a panic, for either meaning of the loop variable. -/
theorem steps_repeat_any (sem : LoopVar) (pre rest : List UInt8) (b c : UInt8) (h : b ∈ pre) :
    ∃ (j : Nat) (s : BuildState),
      BuildState.steps sem j (starState (pre ++ b :: c :: rest) pre) = .ok s ∧
      s.activeNode = none ∧
      BuildState.steps sem 6 (starState (pre ++ b :: c :: rest) pre) = .error .nilDeref := by
  obtain ⟨k, hk, hg, hm⟩ := mapGet_starChildren_some h 0
  simp only [Nat.zero_add] at hm
  have hlen : (pre.length : Int) < ((pre ++ b :: c :: rest).length : Int) := by
    simp only [List.length_append, List.length_cons]; omega
  have hlen2 : (pre.length : Int) + 1 < ((pre ++ b :: c :: rest).length : Int) := by
    simp only [List.length_append, List.length_cons]; omega
  have hb := byteAt_append_length pre (c :: rest) b
  cases sem with
  | perIteration =>
    have hc : byteAt (pre ++ b :: c :: rest) ((pre.length : Int) + 1) = .ok c := by
      have := byteAt_append_length (pre ++ [b]) rest c
      simpa using this
    have htk : byteAt (pre ++ b :: c :: rest) (k : Int) = .ok b := by
      apply byteAt_of_getElem?
      rw [List.getElem?_append_left hk]
      exact hg
    obtain ⟨s, h1, h2, h3, h4⟩ :=
      steps_repeat_state (pre ++ b :: c :: rest) pre b c k hlen hlen2 hb hc hk htk hm
    refine ⟨5, s, h1, h2, ?_⟩
    rw [show 6 = 5 + 1 from rfl, steps_add, h1]
    simp only [bind, Except.bind, BuildState.steps]
    rw [step_nil h2 h3 h4]
  | shared =>
    obtain ⟨c', hc'⟩ : ∃ c', byteAt (pre ++ b :: c :: rest) (((k + 1 : Nat) : Int)) = .ok c' :=
      byteAt_lt (by simp only [List.length_append, List.length_cons]; omega)
    have hc2 : byteAt (pre ++ b :: c :: rest) ((k : Int) + 1) = .ok c' := by
      simpa using hc'
    obtain ⟨s, h1, h2, h3, h4, h5, h6⟩ :=
      steps_repeat_state_shared (pre ++ b :: c :: rest) pre b c' k hlen hb hc2 hk hm
    refine ⟨3, s, h1, h2, ?_⟩
    rw [show 6 = 3 + 3 from rfl, steps_add, h1]
    simp only [bind, Except.bind]
    apply steps_nil h2 h3 h4
    unfold BuildState.i
    rw [h5, h6]
    exact hlen2

/-- When the bytes before the sentinel are not pairwise distinct, `Build` reaches a nil
active node and panics, within three steps per byte of the stored text that is left, for
either meaning of the loop variable. -/
theorem steps_not_nodup_any (sem : LoopVar) (rest pre : List UInt8)
    (hs : sentinel ∉ pre ++ rest) (hpre : pre.Nodup) (h : ¬ (pre ++ rest).Nodup) :
    ∃ (j : Nat) (s : BuildState) (j' : Nat),
      BuildState.steps sem j (starState (pre ++ rest ++ [sentinel]) pre) = .ok s ∧
      s.activeNode = none ∧ j' ≤ 3 * (rest.length + 1) ∧
      BuildState.steps sem j' (starState (pre ++ rest ++ [sentinel]) pre) =
        .error .nilDeref := by
  induction rest generalizing pre with
  | nil => exact absurd (by simpa using hpre) h
  | cons b rest ih =>
    by_cases hb : b ∈ pre
    · cases rest with
      | nil =>
        obtain ⟨j, s, h1, h2, h3⟩ := steps_repeat_any sem pre [] b sentinel hb
        exact ⟨j, s, 6, by simpa using h1, h2, by simp, by simpa using h3⟩
      | cons c rest =>
        obtain ⟨j, s, h1, h2, h3⟩ := steps_repeat_any sem pre (rest ++ [sentinel]) b c hb
        exact ⟨j, s, 6, by simpa using h1, h2, by simp; omega, by simpa using h3⟩
    · have hpre2 : (pre ++ [b]).Nodup := by
        rw [List.nodup_append]
        refine ⟨hpre, List.nodup_singleton b, ?_⟩
        intro x hx hx2
        rw [List.mem_singleton] at hx2
        exact hb (hx2 ▸ hx)
      have e : pre ++ b :: rest = (pre ++ [b]) ++ rest := by simp
      obtain ⟨j, s, j', h1, h2, h3, h4⟩ :=
        ih (pre ++ [b]) (by rw [← e]; exact hs) hpre2 (by rw [← e]; exact h)
      have hf := steps_fresh sem pre (rest ++ [sentinel]) b hb
      have e2 : pre ++ b :: rest ++ [sentinel] = pre ++ b :: (rest ++ [sentinel]) := by simp
      have e3 : pre ++ b :: (rest ++ [sentinel]) = pre ++ [b] ++ rest ++ [sentinel] := by simp
      refine ⟨3 + j, s, 3 + j', ?_, h2, by simp only [List.length_cons]; omega, ?_⟩
      · rw [steps_add, e2, hf]
        simp only [bind, Except.bind]
        rw [e3]
        exact h1
      · rw [steps_add, e2, hf]
        simp only [bind, Except.bind]
        rw [e3]
        exact h4

/-- On an input with a repeated byte and no sentinel `Build` reaches a nil active node and
panics before the step bound `3 * (len(T) + 1)`, for either meaning of the loop variable. -/
theorem Build_repeat_any (sem : LoopVar) (T : List UInt8) (hs : sentinel ∉ T)
    (h : ¬ T.Nodup) :
    (∃ (j : Nat) (s : BuildState), BuildTrace sem j (NewSuffixTree T) = .ok s ∧
      s.activeNode = none) ∧
    ∃ j', j' ≤ 3 * (T.length + 1) ∧ Build sem j' (NewSuffixTree T) = some (.error .nilDeref) := by
  obtain ⟨j, s, j', h1, h2, h3, h4⟩ :=
    steps_not_nodup_any sem T [] (by simpa using hs) List.nodup_nil (by simpa using h)
  simp only [List.nil_append] at h1 h4
  refine ⟨⟨j, s, ?_, h2⟩, j', h3, ?_⟩
  · simp [BuildTrace, init_NewSuffixTree, bind, Except.bind, h1]
  · simp [Build, BuildTrace, init_NewSuffixTree, bind, Except.bind, h4]

/-- The three states of a phase whose byte is new under the root all have the root as
active node. -/
theorem steps_fresh_active (sem : LoopVar) (pre rest : List UInt8) (b : UInt8) (h : b ∉ pre)
    (k : Nat) (hk : k < 3) (s : BuildState)
    (hs : BuildState.steps sem k (starState (pre ++ b :: rest) pre) = .ok s) :
    s.activeNode = some 0 := by
  have hlen : (pre.length : Int) < ((pre ++ b :: rest).length : Int) := by
    simp only [List.length_append, List.length_cons]; omega
  obtain rfl | rfl | rfl : k = 0 ∨ k = 1 ∨ k = 2 := by omega
  · simp only [BuildState.steps, pure, Except.pure] at hs
    cases hs
    rfl
  · simp [BuildState.steps, BuildState.step, starState, starTree, BuildState.i, bind,
      Except.bind, pure, Except.pure, hlen] at hs
    subst hs
    rfl
  · simp [BuildState.steps, BuildState.step, starState, starTree, BuildState.i, bind,
      Except.bind, pure, Except.pure, hlen, innerBody, getNode, starNodes, byteAt_append_length,
      mapGet_starChildren_none h, addLeaf, BuildState.linkPending, BuildState.incNodeCount,
      BuildState.alloc, BuildState.setChild, BuildState.setNode, advance] at hs
    subst hs
    rfl

/-- On a text without repeated bytes the active node is the root in every state that
`Build` goes through. -/
theorem steps_star_active (sem : LoopVar) (rest pre : List UInt8) (h : (pre ++ rest).Nodup)
    (k : Nat) (s : BuildState)
    (hs : BuildState.steps sem k (starState (pre ++ rest) pre) = .ok s) :
    s.activeNode = some 0 := by
  induction rest generalizing pre k with
  | nil =>
    cases k with
    | zero =>
      simp only [BuildState.steps, pure, Except.pure] at hs
      cases hs
      rfl
    | succ k =>
      have h1 : (starState (pre ++ []) pre).step sem =
          .ok { starState (pre ++ []) pre with pc := .done } := by
        simp [BuildState.step, starState, starTree, BuildState.i, pure, Except.pure]
      simp only [BuildState.steps, bind, Except.bind, h1] at hs
      rw [steps_done sem k _ rfl] at hs
      cases hs
      rfl
  | cons b rest ih =>
    have hb : b ∉ pre := by
      intro hm
      have := List.disjoint_of_nodup_append h
      exact this hm (List.mem_cons_self b rest)
    by_cases hk : k < 3
    · exact steps_fresh_active sem pre rest b hb k hk s hs
    · obtain ⟨j, rfl⟩ : ∃ j, k = 3 + j := ⟨k - 3, by omega⟩
      rw [steps_add, steps_fresh sem pre rest b hb] at hs
      simp only [bind, Except.bind] at hs
      have e : pre ++ b :: rest = (pre ++ [b]) ++ rest := by simp
      rw [e] at hs
      exact ih (pre ++ [b]) (by rw [← e]; exact h) j hs

/-- On an input without repeated bytes and without the sentinel no state of `Build` has a
nil active node. -/
theorem BuildTrace_nodup_active (sem : LoopVar) (T : List UInt8) (hs : sentinel ∉ T)
    (h : T.Nodup) (k : Nat) (s : BuildState)
    (hk : BuildTrace sem k (NewSuffixTree T) = .ok s) : s.activeNode = some 0 := by
  simp only [BuildTrace, init_NewSuffixTree, bind, Except.bind] at hk
  exact steps_star_active sem (T ++ [sentinel]) [] (by simpa using nodup_append_sentinel hs h)
    k s hk

/-- `Build` halts on every input without the sentinel, by returning or by panicking, within
`3 * (len(T) + 1) + 1` steps of the machine: at most three steps for each of the
`len(T) + 1` phases and one for the exit of the outer loop. -/
theorem Build_halts (sem : LoopVar) (T : List UInt8) (hs : sentinel ∉ T) :
    ∃ (k : Nat) (r : Except Fault SuffixTree),
      k ≤ 3 * (T.length + 1) + 1 ∧ Build sem k (NewSuffixTree T) = some r := by
  by_cases h : T.Nodup
  · exact ⟨_, _, Nat.le_refl _, Build_nodup sem T (nodup_append_sentinel hs h)⟩
  · obtain ⟨_, j, hj, hb⟩ := Build_repeat_any sem T hs h
    exact ⟨j, _, by omega, hb⟩

theorem BuildTrace_aaa (sem : LoopVar) :
    BuildTrace sem 9 (NewSuffixTree (ascii "aaa")) = .error .nilDeref := by
  cases sem <;> rfl

/-! ## With a per-iteration loop variable -/

/-- When every iteration of the loop of `Build` has its own variable, `Contains` is sound:
if the input has no sentinel, `Build` returns with tree `t`, and the pattern is not a
contiguous part of the stored text (the input followed by the sentinel), `Contains` returns
false after at most as many iterations as the pattern has bytes. -/
theorem contains_sound_perIteration (T P : List UInt8) (hT : sentinel ∉ T) (fuel : Nat)
    (t : SuffixTree) (hB : Build .perIteration fuel (NewSuffixTree T) = some (.ok t))
    (hP : ¬ P <:+: T ++ [sentinel]) (k : Nat) (hk : P.length ≤ k) :
    Contains .perIteration k t P = some (.ok false) := by
  obtain ⟨_, rfl⟩ := Build_ok_star hT hB
  cases P with
  | nil => exact absurd List.nil_infix hP
  | cons c P =>
    by_cases hc : c ∈ T ++ [sentinel]
    · cases P with
      | nil =>
        obtain ⟨u, v, huv⟩ := List.append_of_mem hc
        exact absurd ⟨u, v, by rw [huv]; simp⟩ hP
      | cons d P =>
        obtain ⟨j, rfl⟩ : ∃ j, k = j + 2 := ⟨k - 2, by simp at hk; omega⟩
        have := Contains_star_mem (T ++ [sentinel]) (T ++ [sentinel]) [] (by simp) hc
          (d :: P) j
        simpa using this
    · obtain ⟨j, rfl⟩ : ∃ j, k = j + 1 := ⟨k - 1, by simp at hk; omega⟩
      exact Contains_star_not_mem hc P j

/-- When every iteration of the loop of `Build` has its own variable, the children maps are
keyed by first bytes in every state that `Build` reaches on any input: every entry
`c -> child` leads to a node whose `start` reads a position holding the byte `c`, the edge
label of the child is the single byte `c`, and entries of one node under different bytes
lead to edges with different first bytes. -/
theorem child_key_perIteration (T : List UInt8) (k : Nat) (s : BuildState)
    (h : BuildTrace .perIteration k (NewSuffixTree T) = .ok s) (a : Nat) (nd : Node)
    (c : UInt8) (ch : Nat) (ha : s.st.nodes[a]? = some nd)
    (hm : mapGet nd.children c = some ch) :
    (∃ (chn : Node) (b : Int), s.st.nodes[ch]? = some chn ∧
      chn.start.load .perIteration s.i = .ok b ∧ byteAt s.st.text b = .ok c) ∧
    (edgeLabel .perIteration s.st ch).map List.head? = .ok (some c) ∧
    (∀ (c2 : UInt8) (ch2 : Nat), mapGet nd.children c2 = some ch2 → c2 ≠ c →
      (edgeLabel .perIteration s.st ch2).map List.head? ≠
        (edgeLabel .perIteration s.st ch).map List.head?) := by
  obtain ⟨chn, b, h1, h2, _, h4, h5⟩ := reach_keyed h ha hm
  refine ⟨⟨chn, b, h1, by rw [h2]; rfl, h4⟩, by rw [h5]; rfl, ?_⟩
  intro c2 ch2 hm2 hne
  obtain ⟨_, _, _, _, _, _, g5⟩ := reach_keyed h ha hm2
  rw [h5, g5]
  intro hx
  simp only [Except.map, List.head?_cons, Except.ok.injEq, Option.some.injEq] at hx
  exact hne hx

/-- When every iteration of the loop of `Build` has its own variable, the edge ranges of a
tree that `Build` returns are valid: every node other than the root has
`0 <= start <= end < len(T)+1`; for every child entry the slice taken by `Contains` is in
range and not empty; every iteration of `Contains` that goes on advances the pattern index
by at least 1; and for every pattern `Contains` returns a boolean within `len(P)`
iterations. -/
theorem edge_ranges_perIteration (T : List UInt8) (fuel : Nat) (t : SuffixTree)
    (h : Build .perIteration fuel (NewSuffixTree T) = some (.ok t)) :
    (∀ (a : Nat) (nd : Node), t.nodes[a]? = some nd → a ≠ 0 →
      ∃ b e : Int, nd.start.load .perIteration t.loopI = .ok b ∧
        nd.end_.load .perIteration t.loopI = .ok e ∧ 0 ≤ b ∧ b ≤ e ∧
        e < (T.length : Int) + 1) ∧
    (∀ (a : Nat) (nd : Node) (c : UInt8) (ch : Nat), t.nodes[a]? = some nd →
      mapGet nd.children c = some ch →
      ∃ e, edgeLabel .perIteration t ch = .ok e ∧ e ≠ []) ∧
    (∀ (P : List UInt8) (cs cs' : ContainsState), cs.st = t →
      cs.step .perIteration P = .ok (.inl cs') → cs.i + 1 ≤ cs'.i) ∧
    (∀ P : List UInt8, ∃ b, Contains .perIteration P.length t P = some (.ok b)) := by
  obtain ⟨s, hs, _, rfl⟩ := Build_ok_trace h
  obtain ⟨⟨hS, _⟩, _⟩ := Inv.reach hs
  have htext := reach_text hs
  have hedge : ∀ (a : Nat) (nd : Node) (c : UInt8) (ch : Nat), s.st.nodes[a]? = some nd →
      mapGet nd.children c = some ch →
      ∃ e, edgeLabel .perIteration s.st ch = .ok e ∧ e ≠ [] := by
    intro a nd c ch ha hm
    obtain ⟨_, _, _, _, _, _, h5⟩ := reach_keyed hs ha hm
    exact ⟨[c], h5, by simp⟩
  have hkey : KeyedHeap .perIteration s.st := by
    intro a nd c ch ha hm
    obtain ⟨_, _, _, _, _, _, h5⟩ := reach_keyed hs ha hm
    exact ⟨[c], h5, rfl⟩
  refine ⟨?_, hedge, ?_, ?_⟩
  · intro a nd ha ha0
    obtain ⟨k, h1, h2, h3, _, h5⟩ := hS.leaves a nd ha ha0
    refine ⟨k, k, by rw [h1]; rfl, by rw [h2]; rfl, h3, le_refl _, ?_⟩
    rw [htext] at h5
    simpa using h5
  · intro P cs cs' hcs hstep
    simp only [ContainsState.step, bind, Except.bind, pure, Except.pure] at hstep
    split at hstep
    · cases hstep
    rename_i nd hnd
    split at hstep
    · cases hstep
    rename_i ch hm
    split at hstep
    · cases hstep
    rename_i e he
    split at hstep
    · cases hstep
      show cs.i + 1 ≤ cs.i + e.length
      cases hn : cs.node with
      | none => rw [hn] at hnd; simp [getNode] at hnd
      | some a =>
        rw [hn, hcs] at hnd
        rw [hcs] at he
        obtain ⟨e', he', hne⟩ := hedge a nd _ ch (getNode_some_iff.1 hnd) hm
        rw [he] at he'
        cases he'
        cases e with
        | nil => exact absurd rfl hne
        | cons x e => simp
    · cases hstep
  · intro P
    have hroot : ∃ nd, getNode s.st.nodes s.st.root = .ok nd := by
      rw [hS.root]
      have := hS.rootAlloc
      cases hn : s.st.nodes with
      | nil => rw [hn] at this; simp at this
      | cons x l => exact ⟨x, by simp [getNode]⟩
    have := (containsLoop_path hkey.keyed P P.length { st := s.st, node := s.st.root, i := 0 } []
      rfl (Path.nil _) (Nat.zero_le _) (by simp)).2 hroot
    exact this

/-! ## The specified properties -/

/-- C1 (substring-occurrence equivalence) fails on the code: the pattern "ab" occurs in
the text "ab" and neither contains the sentinel, yet `Contains` does not return true,
whatever the fuel: with a per-iteration loop variable it returns false, with a shared one it
panics on the slice; and on the text "banana" of the tests `Build` itself panics on a nil
active node, so the query for "ana" is never answered. -/
theorem C1_substring_not_found :
    sentinel ∉ ascii "ab" ∧ ascii "ab" <:+: ascii "ab" ∧
    (∀ sem fuel, buildAndQuery sem fuel (ascii "ab") (ascii "ab") ≠ some (.ok true)) ∧
    buildAndQuery .perIteration 10 (ascii "ab") (ascii "ab") = some (.ok false) ∧
    buildAndQuery .shared 10 (ascii "ab") (ascii "ab") = some (.error .sliceOutOfRange) ∧
    (∀ sem fuel, buildAndQuery sem (20 + fuel) (ascii "banana") (ascii "ana") =
      some (.error .nilDeref)) := by
  refine ⟨by decide, List.infix_refl _, ?_, query_ab_ab.1, query_ab_ab.2, ?_⟩
  · intro sem fuel
    cases sem
    · exact buildAndQuery_ne_of_eq query_ab_ab.2 (by simp) fuel
    · exact buildAndQuery_ne_of_eq query_ab_ab.1 (by simp) fuel
  · intro sem fuel
    exact buildAndQuery_of_fault (Build_banana sem) _ fuel

/-- C2 (completeness) fails on the code: for the text "abc" and offset 1 the suffix "bc" is
never reported as contained (false with a per-iteration loop variable, a slice panic with a
shared one), and on the texts "aaaa", "banana" and "mississippi" of the tests `Build`
panics on a nil active node before any suffix can be queried. -/
theorem C2_suffix_not_found :
    1 < (ascii "abc").length ∧
    (∀ sem fuel,
      buildAndQuery sem fuel (ascii "abc") ((ascii "abc").drop 1) ≠ some (.ok true)) ∧
    (∀ sem fuel P, buildAndQuery sem (20 + fuel) (ascii "aaaa") P = some (.error .nilDeref)) ∧
    (∀ sem fuel P, buildAndQuery sem (20 + fuel) (ascii "banana") P = some (.error .nilDeref)) ∧
    (∀ sem fuel P,
      buildAndQuery sem (20 + fuel) (ascii "mississippi") P = some (.error .nilDeref)) := by
  refine ⟨by decide, ?_, ?_, ?_, ?_⟩
  · intro sem fuel
    cases sem
    · exact buildAndQuery_ne_of_eq query_abc_bc.2 (by simp) fuel
    · exact buildAndQuery_ne_of_eq query_abc_bc.1 (by simp) fuel
  · intro sem fuel P
    exact buildAndQuery_of_fault (Build_aaaa sem) P fuel
  · intro sem fuel P
    exact buildAndQuery_of_fault (Build_banana sem) P fuel
  · intro sem fuel P
    exact buildAndQuery_of_fault (Build_mississippi sem) P fuel

/-- C3 (soundness of `Contains`) fails on the code when the iterations of the loop of `Build`
share one loop variable: on the text "a" `Build` returns, "ab" is not a contiguous part of
the stored text "a$", and yet `Contains` does not return false, whatever the fuel.  The
`start` of the leaf under "a" is the address of the loop variable, which reads 2 after the
loop, so the slice `text[2:1]` taken for that edge panics.  When every iteration has its own
variable the same query returns false. -/
theorem C3_contains_panics_shared :
    sentinel ∉ ascii "a" ∧ ¬ ascii "ab" <:+: ascii "a" ++ [sentinel] ∧
    Build .shared 7 (NewSuffixTree (ascii "a")) =
      some (.ok (starTree (ascii "a" ++ [sentinel]) (ascii "a" ++ [sentinel]))) ∧
    (∀ fuel, Contains .shared (fuel + 1)
      (starTree (ascii "a" ++ [sentinel]) (ascii "a" ++ [sentinel])) (ascii "ab") =
        some (.error .sliceOutOfRange)) ∧
    (∀ fuel, buildAndQuery .shared fuel (ascii "a") (ascii "ab") ≠ some (.ok false)) ∧
    buildAndQuery .perIteration 7 (ascii "a") (ascii "ab") = some (.ok false) := by
  have hq : buildAndQuery .shared 7 (ascii "a") (ascii "ab") =
      some (.error .sliceOutOfRange) := by
    rw [buildAndQuery_of_ok (Build_a _)]; rfl
  refine ⟨by decide, by decide, Build_a _, ?_, ?_, ?_⟩
  · intro fuel
    have h1 : Contains .shared 1 (starTree (ascii "a" ++ [sentinel]) (ascii "a" ++ [sentinel]))
        (ascii "ab") = some (.error .sliceOutOfRange) := rfl
    exact Contains_mono h1 (Nat.le_add_left 1 fuel)
  · intro fuel
    exact buildAndQuery_ne_of_eq hq (by simp) fuel
  · rw [buildAndQuery_of_ok (Build_a _)]; rfl

/-- C4 (every sentinel-terminated suffix is found) fails on the code: for the text "a" and
offset 0 the suffix "a$" is never reported as contained (false with a per-iteration loop
variable, a slice panic with a shared one), and on the text "aaaa" `Build` panics on a nil
active node, so none of "aaaa$", "aaa$", "aa$", "a$", "$" is answered. -/
theorem C4_sentinel_suffix_not_found :
    sentinel ∉ ascii "a" ∧ 0 ≤ (ascii "a").length ∧
    (∀ sem fuel,
      buildAndQuery sem fuel (ascii "a") ((ascii "a" ++ [sentinel]).drop 0) ≠ some (.ok true)) ∧
    (∀ sem fuel k,
      buildAndQuery sem (20 + fuel) (ascii "aaaa") ((ascii "aaaa" ++ [sentinel]).drop k) =
        some (.error .nilDeref)) := by
  refine ⟨by decide, by decide, ?_, ?_⟩
  · intro sem fuel
    cases sem
    · exact buildAndQuery_ne_of_eq query_a_suffix.2 (by simp) fuel
    · exact buildAndQuery_ne_of_eq query_a_suffix.1 (by simp) fuel
  · intro sem fuel k
    exact buildAndQuery_of_fault (Build_aaaa sem) _ fuel

/-- C5 (`Build` is fault-free) fails on the code: on the input "aa", which has no sentinel,
the eighth step of `Build` leaves the inner loop head with a pending suffix and a nil active
node (the suffix link of a leaf, never assigned, has been followed), and the next iteration
dereferences it: `Build` panics, for either meaning of the loop variable. -/
theorem C5_build_panics_on_repeat :
    sentinel ∉ ascii "aa" ∧
    (∀ sem, (BuildTrace sem 8 (NewSuffixTree (ascii "aa"))).map
      (fun s => (s.pc, s.activeNode, s.remainingSuffixCount)) = .ok (.inner, none, 1)) ∧
    (∀ sem fuel, Build sem (9 + fuel) (NewSuffixTree (ascii "aa")) = some (.error .nilDeref)) := by
  refine ⟨by decide, ?_, ?_⟩
  · intro sem
    cases sem <;> rfl
  · intro sem fuel
    have h : Build sem 9 (NewSuffixTree (ascii "aa")) = some (.error .nilDeref) := by
      cases sem <;> rfl
    exact Build_mono h (Nat.le_add_right 9 fuel)

/-- C6 (the documented scenario) fails on the code: on "banana" and on "mississippi" `Build`
panics on a nil active node, so none of the seven queries of the scenario returns a
boolean, whatever the fuel and for either meaning of the loop variable. -/
theorem C6_scenario_panics :
    (∀ sem fuel P, buildAndQuery sem (20 + fuel) (ascii "banana") P = some (.error .nilDeref)) ∧
    (∀ sem fuel P,
      buildAndQuery sem (20 + fuel) (ascii "mississippi") P = some (.error .nilDeref)) ∧
    (∀ sem fuel b, buildAndQuery sem fuel (ascii "banana") (ascii "ana") ≠ some (.ok b)) ∧
    (∀ sem fuel b, buildAndQuery sem fuel (ascii "banana") (ascii "anan") ≠ some (.ok b)) ∧
    (∀ sem fuel b, buildAndQuery sem fuel (ascii "banana") (ascii "banana") ≠ some (.ok b)) ∧
    (∀ sem fuel b, buildAndQuery sem fuel (ascii "banana") (ascii "") ≠ some (.ok b)) ∧
    (∀ sem fuel b, buildAndQuery sem fuel (ascii "mississippi") (ascii "ssi") ≠ some (.ok b)) ∧
    (∀ sem fuel b,
      buildAndQuery sem fuel (ascii "mississippi") (ascii "issippi") ≠ some (.ok b)) ∧
    (∀ sem fuel b,
      buildAndQuery sem fuel (ascii "mississippi") (ascii "ppippi") ≠ some (.ok b)) := by
  have hb : ∀ sem fuel P, buildAndQuery sem (20 + fuel) (ascii "banana") P =
      some (.error .nilDeref) :=
    fun sem fuel P => buildAndQuery_of_fault (Build_banana sem) P fuel
  have hm : ∀ sem fuel P, buildAndQuery sem (20 + fuel) (ascii "mississippi") P =
      some (.error .nilDeref) :=
    fun sem fuel P => buildAndQuery_of_fault (Build_mississippi sem) P fuel
  refine ⟨hb, hm, ?_, ?_, ?_, ?_, ?_, ?_, ?_⟩
  · exact fun sem fuel b => buildAndQuery_ne_of_eq (hb sem 0 _) (by simp) fuel
  · exact fun sem fuel b => buildAndQuery_ne_of_eq (hb sem 0 _) (by simp) fuel
  · exact fun sem fuel b => buildAndQuery_ne_of_eq (hb sem 0 _) (by simp) fuel
  · exact fun sem fuel b => buildAndQuery_ne_of_eq (hb sem 0 _) (by simp) fuel
  · exact fun sem fuel b => buildAndQuery_ne_of_eq (hm sem 0 _) (by simp) fuel
  · exact fun sem fuel b => buildAndQuery_ne_of_eq (hm sem 0 _) (by simp) fuel
  · exact fun sem fuel b => buildAndQuery_ne_of_eq (hm sem 0 _) (by simp) fuel

/-- C7 (linear node-count bound): for every input text and either meaning of the loop
variable, in every state that `Build` reaches (after any number of steps, the returned
state included) `nodeCount` is at most twice the length of the stored text. -/
theorem C7_node_count_bound (sem : LoopVar) (T : List UInt8) (k : Nat) (s : BuildState)
    (h : BuildTrace sem k (NewSuffixTree T) = .ok s) :
    s.st.nodeCount ≤ 2 * ((T.length : Int) + 1) := by
  unfold BuildTrace at h
  rw [init_NewSuffixTree] at h
  exact CountInv_bound (CountInv_steps k (CountInv_init T) h)

/-- Witness for C7: the state in which `Build` returns on "ab". -/
theorem C7_node_count_bound_witness :
    BuildTrace .perIteration 10 (NewSuffixTree (ascii "ab")) =
      .ok (doneState (ascii "ab" ++ [sentinel])) ∧
    (doneState (ascii "ab" ++ [sentinel])).st.nodeCount ≤ 2 * (((ascii "ab").length : Int) + 1) :=
  ⟨BuildTrace_nodup _ (ascii "ab") (by decide),
    C7_node_count_bound .perIteration (ascii "ab") 10 _
      (BuildTrace_nodup _ (ascii "ab") (by decide))⟩

/-- C8 (empty text) fails on the code in its last part when the iterations of the loop of
`Build` share one loop variable.  For either meaning of the loop variable `Build` returns on
the empty input with the tree `emptyTextTree`: the root has exactly one child, stored under
the sentinel, that child has no children, and `nodeCount` is 1.  But the `start` of the
child is the address of the loop variable, which reads 1 after the loop: with a shared
variable `start = 1`, `end = 0` and the edge label `text[1:1]` is empty, not "$".  When
every iteration has its own variable `start = end = 0` and the label is "$". -/
theorem C8_empty_text_label_shared :
    (∀ sem, Build sem 4 (NewSuffixTree []) = some (.ok emptyTextTree)) ∧
    (getNode emptyTextTree.nodes emptyTextTree.root).map (fun nd => nd.children) =
      .ok [(sentinel, 1)] ∧
    (getNode emptyTextTree.nodes (some 1)).map (fun nd => nd.children) = .ok [] ∧
    emptyTextTree.nodeCount = 1 ∧
    (getNode emptyTextTree.nodes (some 1) >>= fun nd =>
      nd.start.load .shared emptyTextTree.loopI) = .ok 1 ∧
    (getNode emptyTextTree.nodes (some 1) >>= fun nd =>
      nd.end_.load .shared emptyTextTree.loopI) = .ok 0 ∧
    edgeLabel .shared emptyTextTree 1 = .ok [] ∧
    (getNode emptyTextTree.nodes (some 1) >>= fun nd =>
      nd.start.load .perIteration emptyTextTree.loopI) = .ok 0 ∧
    (getNode emptyTextTree.nodes (some 1) >>= fun nd =>
      nd.end_.load .perIteration emptyTextTree.loopI) = .ok 0 ∧
    edgeLabel .perIteration emptyTextTree 1 = .ok [sentinel] := by
  refine ⟨fun sem => ?_, rfl, rfl, rfl, rfl, rfl, rfl, rfl, rfl, rfl⟩
  exact Build_nodup sem [] (by decide)

/-- C9 (the empty pattern is always contained): on every tree value, with any fuel and for
either meaning of the loop variable, `Contains` returns true for the empty pattern. -/
theorem C9_empty_pattern (sem : LoopVar) (fuel : Nat) (st : SuffixTree) :
    Contains sem fuel st [] = some (.ok true) := by
  cases fuel <;> simp [Contains, ContainsRun, containsLoop]

theorem containsLoop_st (sem : LoopVar) (pattern : List UInt8) (fuel : Nat)
    (s : ContainsState) : (containsLoop sem pattern fuel s).1 = s.st := by
  induction fuel generalizing s with
  | zero =>
    rw [containsLoop]
    split <;> rfl
  | succ fuel ih =>
    rw [containsLoop]
    split
    · split
      · rfl
      · rfl
      · rename_i s1 h1
        rw [ih s1]
        simp only [ContainsState.step, bind, Except.bind, pure, Except.pure] at h1
        repeat' split at h1
        all_goals first
          | (cases h1; done)
          | (cases h1; rfl)
    · rfl

/-- C10 (queries are read-only and repeatable): for every tree state, pattern and fuel,
running `Contains` leaves the tree (text, node count, every node with its children, start,
end and suffix link, and the loop variable cell) as it was, and a second call on the tree
it leaves ends exactly as the first. -/
theorem C10_contains_read_only (sem : LoopVar) (fuel : Nat) (st : SuffixTree)
    (P : List UInt8) :
    (ContainsRun sem fuel st P).1 = st ∧
    Contains sem fuel (ContainsRun sem fuel st P).1 P = Contains sem fuel st P := by
  have h : (ContainsRun sem fuel st P).1 = st := containsLoop_st sem P fuel _
  exact ⟨h, by rw [h]⟩

/-- C11 (`Build` halts after exactly `len(T) + 1` outer phases) fails on the code: on the
input "aaa", of length 3, `Build` halts by a nil-pointer panic at step 9, whatever the
fuel beyond that, and every state it goes through has started fewer than 4 phases: for
either meaning of the loop variable the panic comes in the third phase, so the phase of the
sentinel is never entered. -/
theorem C11_build_stops_early :
    (∀ sem fuel, Build sem (9 + fuel) (NewSuffixTree (ascii "aaa")) = some (.error .nilDeref)) ∧
    (∀ sem k, (∃ s, BuildTrace sem k (NewSuffixTree (ascii "aaa")) = .ok s ∧
        phasesStarted s < ((ascii "aaa").length : Int) + 1) ∨
      BuildTrace sem k (NewSuffixTree (ascii "aaa")) = .error .nilDeref) ∧
    (∀ sem, ∃ s, BuildTrace sem 8 (NewSuffixTree (ascii "aaa")) = .ok s ∧
      phasesStarted s = 3 ∧ s.activeNode = none ∧ s.pc = .inner) := by
  refine ⟨?_, ?_, ?_⟩
  · intro sem fuel
    have h : Build sem 9 (NewSuffixTree (ascii "aaa")) = some (.error .nilDeref) := by
      cases sem <;> rfl
    exact Build_mono h (Nat.le_add_right 9 fuel)
  · intro sem k
    by_cases hk : k < 9
    · cases sem <;> interval_cases k <;> exact Or.inl ⟨_, rfl, by decide⟩
    · obtain ⟨j, rfl⟩ : ∃ j, k = 9 + j := ⟨k - 9, by omega⟩
      right
      rw [BuildTrace_add, BuildTrace_aaa]
      rfl
  · intro sem
    cases sem
    · exact ⟨_, rfl, by decide, rfl, rfl⟩
    · exact ⟨_, rfl, by decide, rfl, rfl⟩

/-- C12 (`Contains` matches only whole edges): in every tree in which each child of a node
is stored under the first byte of its non-empty edge label, with fuel for one iteration
per pattern byte, `Contains(P)` returns true if and only if `P` is the concatenation of the
edge labels along a path from the root to some node; a pattern that follows such a path and
then stops strictly inside the label of the next edge is answered with false. -/
theorem C12_contains_whole_edges (sem : LoopVar) (st : SuffixTree)
    (hw : KeyedByFirstByte sem st) (P : List UInt8) (fuel : Nat) (hf : P.length ≤ fuel) :
    (Contains sem fuel st P = some (.ok true) ↔ ∃ q, Path sem st st.root P q) ∧
    (∀ (w r : List UInt8) (p : Option Nat) (nd : Node) (c : UInt8) (ch : Nat) (e : List UInt8),
      P = w ++ r → Path sem st st.root w p → getNode st.nodes p = .ok nd →
      mapGet nd.children c = some ch → edgeLabel sem st ch = .ok e →
      r ≠ [] → r <+: e → r.length < e.length →
      Contains sem fuel st P = some (.ok false)) := by
  have key := containsLoop_path hw P fuel { st := st, node := st.root, i := 0 } [] rfl
    (Path.nil _) (Nat.zero_le _) (by simpa using hf)
  simp only [List.drop_zero] at key
  refine ⟨key.1, ?_⟩
  intro w r p nd c ch e hP hp hg hm he hne hpre hlt
  obtain ⟨b, hb⟩ := key.2 (Path.source_ok hp hg)
  cases b with
  | false => exact hb
  | true =>
    exfalso
    obtain ⟨q, hq⟩ := key.1.1 hb
    rw [hP] at hq
    have hr := Path.split hw hp (Path.nil _) hq
    cases r with
    | nil => exact hne rfl
    | cons x r =>
      obtain ⟨nd', ch', e', r', g1, g2, g3, _, g5, _⟩ := Path.first_edge hw hp hr
      obtain ⟨e2, he2, hh⟩ := hw w p nd c ch hp hg hm
      rw [he] at he2
      cases he2
      obtain ⟨t, ht⟩ := hpre
      have hx : x = c := by
        rw [← ht] at hh
        simpa using hh
      subst hx
      rw [hg] at g1
      cases g1
      rw [hm] at g2
      cases g2
      rw [he] at g3
      cases g3
      have : (x :: r).length = (e ++ r').length := by rw [g5]
      simp only [List.length_append] at this
      omega

/-- Witness for C12: the compressed suffix tree of "a" and the pattern "a". -/
theorem C12_contains_whole_edges_witness :
    KeyedByFirstByte .perIteration compressedTreeOfA ∧ (ascii "a").length ≤ 1 ∧
    (Contains .perIteration 1 compressedTreeOfA (ascii "a") = some (.ok true) ↔
      ∃ q, Path .perIteration compressedTreeOfA compressedTreeOfA.root (ascii "a") q) ∧
    Contains .perIteration 1 compressedTreeOfA (ascii "a") = some (.ok false) :=
  ⟨(keyed_compressedTreeOfA _).keyed, by decide,
    (C12_contains_whole_edges .perIteration compressedTreeOfA (keyed_compressedTreeOfA _).keyed
      (ascii "a") 1 (by decide)).1,
    (C12_contains_whole_edges .perIteration compressedTreeOfA (keyed_compressedTreeOfA _).keyed
      (ascii "a") 1 (by decide)).2 [] (ascii "a") (some 0)
      { children := [(97, 1), (36, 2)], suffixLink := none, start := .null,
        end_ := .cell (-1), id := -1 } 97 1 (ascii "a$") rfl (Path.nil _) rfl rfl rfl
      (by decide) ⟨[36], rfl⟩ (by decide)⟩

/-- C13 (leaf edges share the global end) fails on the code: `end := i` gives every leaf
its own copy of the phase index.  On the input "ab", at the end of phase 1 (loop variable
1, nothing pending) the leaf of phase 0 still has end 0, and in the tree that `Build`
returns the leaves have ends 0, 1, 2 instead of all `len(T) = 2`; the label of the leaf
under "a" is "a", not "ab$". -/
theorem C13_leaf_end_not_shared :
    (∀ sem, (BuildTrace sem 5 (NewSuffixTree (ascii "ab"))).map
      (fun s => (s.pc, s.st.loopI, s.remainingSuffixCount, s.st.nodes.map (fun nd => nd.end_))) =
        .ok (.inner, 1, 0, [.cell (-1), .cell 0, .cell 1])) ∧
    (∀ sem, (Build sem 10 (NewSuffixTree (ascii "ab"))).map
      (fun r => r.map (fun t => t.nodes.map (fun nd => nd.end_))) =
        some (.ok [.cell (-1), .cell 0, .cell 1, .cell 2])) ∧
    (∀ sem, (Build sem 10 (NewSuffixTree (ascii "ab"))).map
      (fun r => r.bind (fun t => edgeLabel .perIteration t 1)) = some (.ok (ascii "a"))) := by
  refine ⟨?_, ?_, ?_⟩
  · intro sem
    cases sem <;> rfl
  · intro sem
    rw [Build_ab]; rfl
  · intro sem
    rw [Build_ab]; rfl

/-- C14 (child-key invariant) fails on the code when the iterations of the loop of `Build`
share one loop variable, because the `start` of every leaf is the address of that variable.
During `Build` on "ab", at the head of the phase with `i = 1` the root holds the entry
`'a' -> leaf`, the `start` of the leaf reads 1, `text[1]` is 'b', and the edge label
`text[1:1]` is empty.  After `Build` on "a" the `start` of the leaf under 'a' reads 2, which
is not a position of the stored text "a$".  When every iteration has its own variable the
`start` of the first leaf reads 0 and its edge label is "a". -/
theorem C14_child_key_lost_shared :
    BuildTrace .shared 3 (NewSuffixTree (ascii "ab")) =
      .ok (starState (ascii "ab" ++ [sentinel]) (ascii "a")) ∧
    (starState (ascii "ab" ++ [sentinel]) (ascii "a")).i = 1 ∧
    (getNode (starState (ascii "ab" ++ [sentinel]) (ascii "a")).st.nodes
        (starState (ascii "ab" ++ [sentinel]) (ascii "a")).st.root).map
      (fun nd => mapGet nd.children 97) = .ok (some 1) ∧
    (getNode (starState (ascii "ab" ++ [sentinel]) (ascii "a")).st.nodes (some 1) >>=
      fun nd => nd.start.load .shared (starState (ascii "ab" ++ [sentinel]) (ascii "a")).i) =
        .ok 1 ∧
    byteAt (starState (ascii "ab" ++ [sentinel]) (ascii "a")).st.text 1 = .ok 98 ∧
    edgeLabel .shared (starState (ascii "ab" ++ [sentinel]) (ascii "a")).st 1 = .ok [] ∧
    Build .shared 7 (NewSuffixTree (ascii "a")) =
      some (.ok (starTree (ascii "a" ++ [sentinel]) (ascii "a" ++ [sentinel]))) ∧
    (getNode (starTree (ascii "a" ++ [sentinel]) (ascii "a" ++ [sentinel])).nodes
        (starTree (ascii "a" ++ [sentinel]) (ascii "a" ++ [sentinel])).root).map
      (fun nd => mapGet nd.children 97) = .ok (some 1) ∧
    (getNode (starTree (ascii "a" ++ [sentinel]) (ascii "a" ++ [sentinel])).nodes (some 1) >>=
      fun nd => nd.start.load .shared
        (starTree (ascii "a" ++ [sentinel]) (ascii "a" ++ [sentinel])).loopI) = .ok 2 ∧
    byteAt (starTree (ascii "a" ++ [sentinel]) (ascii "a" ++ [sentinel])).text 2 =
      .error .indexOutOfRange ∧
    (getNode (starState (ascii "ab" ++ [sentinel]) (ascii "a")).st.nodes (some 1) >>=
      fun nd => nd.start.load .perIteration
        (starState (ascii "ab" ++ [sentinel]) (ascii "a")).i) = .ok 0 ∧
    edgeLabel .perIteration (starState (ascii "ab" ++ [sentinel]) (ascii "a")).st 1 =
      .ok (ascii "a") := by
  refine ⟨?_, rfl, rfl, rfl, rfl, rfl, Build_a _, rfl, rfl, rfl, rfl, rfl⟩
  simp only [BuildTrace, init_NewSuffixTree, bind, Except.bind]
  exact steps_fresh .shared [] (ascii "b" ++ [sentinel]) 97 (by simp)

/-- C15 (contract of `walkDown`): in a state whose active node has a child `ch` stored under
`text[activeEdge]`, with `L = *ch.end - *ch.start + 1`: when `activeLength < L` the call
returns false and the state is the one it was given; otherwise it returns true, the active
node is `ch`, the active edge has advanced by `L`, the active length has dropped by `L`, and
the tree (nodes, text, node count, loop variable), the pending suffix count, the pending
link and `activeEdge + activeLength` are as before. -/
theorem C15_walkDown_contract (sem : LoopVar) (s : BuildState) (an nd : Node) (b : UInt8)
    (ch : Nat) (e st : Int)
    (h1 : getNode s.st.nodes s.activeNode = .ok an)
    (h2 : byteAt s.st.text s.activeEdge = .ok b)
    (h3 : mapGet an.children b = some ch)
    (h4 : getNode s.st.nodes (some ch) = .ok nd)
    (h5 : nd.end_.load sem s.i = .ok e)
    (h6 : nd.start.load sem s.i = .ok st) :
    (s.activeLength < e - st + 1 → walkDown sem s = .ok (s, false)) ∧
    (e - st + 1 ≤ s.activeLength →
      ∃ s', walkDown sem s = .ok (s', true) ∧
        s'.activeNode = some ch ∧
        s'.activeEdge = s.activeEdge + (e - st + 1) ∧
        s'.activeLength = s.activeLength - (e - st + 1) ∧
        s'.st = s.st ∧
        s'.remainingSuffixCount = s.remainingSuffixCount ∧
        s'.lastNewNode = s.lastNewNode ∧
        s'.pc = s.pc ∧
        s'.activeEdge + s'.activeLength = s.activeEdge + s.activeLength) := by
  constructor
  · intro hlt
    simp [walkDown, h1, h2, h3, h4, h5, h6, bind, Except.bind, pure, Except.pure, hlt]
  · intro hge
    have hn : ¬ s.activeLength < e - st + 1 := by omega
    refine ⟨{ s with activeEdge := s.activeEdge + (e - st + 1)
                     activeLength := s.activeLength - (e - st + 1)
                     activeNode := some ch }, ?_, rfl, rfl, rfl, rfl, rfl, rfl, rfl, ?_⟩
    · simp [walkDown, h1, h2, h3, h4, h5, h6, bind, Except.bind, pure, Except.pure, hn]
    · show s.activeEdge + (e - st + 1) + (s.activeLength - (e - st + 1)) = _
      omega

/-- Witness for C15: from `walkDownSample` the walk enters the leaf of "a", whose edge has
length 1. -/
theorem C15_walkDown_contract_witness :
    ((0 : Int) - 0 + 1 ≤ walkDownSample.activeLength →
      ∃ s', walkDown .perIteration walkDownSample = .ok (s', true) ∧
        s'.activeNode = some 1 ∧
        s'.activeEdge = walkDownSample.activeEdge + (0 - 0 + 1) ∧
        s'.activeLength = walkDownSample.activeLength - (0 - 0 + 1) ∧
        s'.st = walkDownSample.st ∧
        s'.remainingSuffixCount = walkDownSample.remainingSuffixCount ∧
        s'.lastNewNode = walkDownSample.lastNewNode ∧
        s'.pc = walkDownSample.pc ∧
        s'.activeEdge + s'.activeLength =
          walkDownSample.activeEdge + walkDownSample.activeLength) ∧
    (0 : Int) - 0 + 1 ≤ walkDownSample.activeLength :=
  ⟨(C15_walkDown_contract .perIteration walkDownSample
      { children := [(97, 1)], suffixLink := none, start := .null, end_ := .cell (-1), id := -1 }
      (leafAt 0) 97 1 0 0 rfl rfl rfl rfl rfl rfl).2, by decide⟩

/-- C17 (exact fault condition of `Build`), for either meaning of the loop variable: on an
input without the sentinel, `Build` reaches a state with a nil active node exactly when a
byte occurs twice in the input, it panics on the nil pointer exactly then, and when the
bytes are pairwise distinct it returns, with the star over the stored text. -/
theorem C17_fault_condition (sem : LoopVar) (T : List UInt8) (hs : sentinel ∉ T) :
    ((∃ (k : Nat) (s : BuildState),
        BuildTrace sem k (NewSuffixTree T) = .ok s ∧ s.activeNode = none) ↔ ¬ T.Nodup) ∧
    ((∃ k, Build sem k (NewSuffixTree T) = some (.error .nilDeref)) ↔ ¬ T.Nodup) ∧
    (T.Nodup → Build sem (3 * (T.length + 1) + 1) (NewSuffixTree T) =
      some (.ok (starTree (T ++ [sentinel]) (T ++ [sentinel])))) := by
  refine ⟨⟨?_, fun h => (Build_repeat_any sem T hs h).1⟩, ⟨?_, ?_⟩, ?_⟩
  · rintro ⟨k, s, h1, h2⟩ hn
    have := BuildTrace_nodup_active sem T hs hn k s h1
    rw [h2] at this
    cases this
  · rintro ⟨k, hk⟩ hn
    have h2 := Build_nodup sem T (nodup_append_sentinel hs hn)
    have := Build_unique hk h2
    cases this
  · intro h
    obtain ⟨_, j, _, hb⟩ := Build_repeat_any sem T hs h
    exact ⟨j, hb⟩
  · intro hn
    exact Build_nodup sem T (nodup_append_sentinel hs hn)

/-- Witness for C17: the input "aa" has no sentinel and a repeated byte, and `Build` panics
on it for a shared loop variable as well. -/
theorem C17_fault_condition_witness :
    sentinel ∉ ascii "aa" ∧ ¬ (ascii "aa").Nodup ∧
    ∃ k, Build .shared k (NewSuffixTree (ascii "aa")) = some (.error .nilDeref) :=
  ⟨by decide, by decide,
    (C17_fault_condition .shared (ascii "aa") (by decide)).2.1.2 (by decide)⟩

/-- C18 (no internal node is ever created): in every state that `Build` reaches, on any
input and for either meaning of the loop variable, the guards of the inner loop do not
select the edge-split branch, `lastNewNode` is nil, no node has a suffix link, `nodeCount`
is at most the number of phases started, and the next step creates at most one node. -/
theorem C18_no_internal_node (sem : LoopVar) (T : List UInt8) (k : Nat) (s : BuildState)
    (h : BuildTrace sem k (NewSuffixTree T) = .ok s) :
    (∀ (s1 : BuildState) (a : Nat) (c : UInt8) (nx : Nat),
      innerBranch sem s ≠ .ok (.split s1 a c nx)) ∧
    s.lastNewNode = none ∧
    (∀ (a : Nat) (nd : Node), s.st.nodes[a]? = some nd → nd.suffixLink = none) ∧
    s.st.nodeCount ≤ phasesStarted s ∧
    (∀ s', s.step sem = .ok s' →
      s.st.nodeCount ≤ s'.st.nodeCount ∧ s'.st.nodeCount ≤ s.st.nodeCount + 1) := by
  obtain ⟨hI, hC⟩ := Inv.reach h
  refine ⟨hI.no_split, hI.1.noPending, hI.1.noLink, ?_, ?_⟩
  · have := hC.1
    have := hC.2
    omega
  · intro s' hs
    obtain ⟨_, _, g1, g2⟩ := Inv.step hI hC hs
    exact ⟨g1, g2⟩

/-- Witness for C18: the state in which `Build` returns on "ab". -/
theorem C18_no_internal_node_witness :
    BuildTrace .perIteration 10 (NewSuffixTree (ascii "ab")) =
      .ok (doneState (ascii "ab" ++ [sentinel])) ∧
    (doneState (ascii "ab" ++ [sentinel])).lastNewNode = none ∧
    (doneState (ascii "ab" ++ [sentinel])).st.nodeCount ≤
      phasesStarted (doneState (ascii "ab" ++ [sentinel])) :=
  ⟨BuildTrace_nodup _ (ascii "ab") (by decide),
    (C18_no_internal_node .perIteration (ascii "ab") 10 _
      (BuildTrace_nodup _ (ascii "ab") (by decide))).2.1,
    (C18_no_internal_node .perIteration (ascii "ab") 10 _
      (BuildTrace_nodup _ (ascii "ab") (by decide))).2.2.2.1⟩

/-- C19 (shape of the tree for texts without repeats): when the input has no sentinel and
no repeated byte, `Build` returns, for either meaning of the loop variable, with a tree
whose root has exactly `len(T)+1` children, stored under the bytes of the stored text in
order (so one under each byte), each of them a node without children and without suffix
link, and `nodeCount` is `len(T)+1`. -/
theorem C19_star_shape (sem : LoopVar) (T : List UInt8) (hs : sentinel ∉ T) (hn : T.Nodup) :
    ∃ t r, Build sem (3 * (T.length + 1) + 1) (NewSuffixTree T) = some (.ok t) ∧
      getNode t.nodes t.root = .ok r ∧
      r.children.length = T.length + 1 ∧
      r.children.map (fun p => p.1) = T ++ [sentinel] ∧
      (∀ c, c ∈ T ++ [sentinel] → ∃ ch, mapGet r.children c = some ch) ∧
      (∀ c ch, mapGet r.children c = some ch →
        ∃ nd, getNode t.nodes (some ch) = .ok nd ∧ nd.children = [] ∧ nd.suffixLink = none) ∧
      t.nodeCount = (T.length : Int) + 1 := by
  refine ⟨_, _, Build_nodup sem T (nodup_append_sentinel hs hn),
    getNode_starNodes_root (T ++ [sentinel]), ?_, ?_, ?_, ?_, ?_⟩
  · simp [starChildren_length]
  · exact starChildren_keys 0 _
  · intro c hc
    obtain ⟨k, _, _, hm⟩ := mapGet_starChildren_some hc 0
    exact ⟨_, hm⟩
  · intro c ch hm
    obtain ⟨k, hk, rfl, _⟩ := mapGet_starChildren_lt 0 hm
    refine ⟨leafAt k, ?_, rfl, rfl⟩
    simpa using getNode_starNodes_leaf hk
  · simp [starTree]

/-- Witness for C19: the input "ab". -/
theorem C19_star_shape_witness :
    sentinel ∉ ascii "ab" ∧ (ascii "ab").Nodup ∧
    ∃ t r, Build .perIteration (3 * ((ascii "ab").length + 1) + 1) (NewSuffixTree (ascii "ab")) =
        some (.ok t) ∧
      getNode t.nodes t.root = .ok r ∧
      r.children.length = (ascii "ab").length + 1 ∧
      r.children.map (fun p => p.1) = ascii "ab" ++ [sentinel] ∧
      (∀ c, c ∈ ascii "ab" ++ [sentinel] → ∃ ch, mapGet r.children c = some ch) ∧
      (∀ c ch, mapGet r.children c = some ch →
        ∃ nd, getNode t.nodes (some ch) = .ok nd ∧ nd.children = [] ∧ nd.suffixLink = none) ∧
      t.nodeCount = ((ascii "ab").length : Int) + 1 :=
  ⟨by decide, by decide, C19_star_shape .perIteration (ascii "ab") (by decide) (by decide)⟩

/-- C20 (edge ranges are valid, so queries are safe and terminate) fails on the code when the
iterations of the loop of `Build` share one loop variable: on the text "a" `Build` returns,
and in the tree the leaf under 'a' has `end = 0` while its `start`, the address of the loop
variable, reads 2, so `start > end`; the slice `text[2:1]` is out of range, and the query for
"a" panics on it, whatever the fuel, instead of returning.  When every iteration has its own
variable the same query returns true. -/
theorem C20_edge_range_invalid_shared :
    Build .shared 7 (NewSuffixTree (ascii "a")) =
      some (.ok (starTree (ascii "a" ++ [sentinel]) (ascii "a" ++ [sentinel]))) ∧
    (getNode (starTree (ascii "a" ++ [sentinel]) (ascii "a" ++ [sentinel])).nodes (some 1) >>=
      fun nd => nd.end_.load .shared
        (starTree (ascii "a" ++ [sentinel]) (ascii "a" ++ [sentinel])).loopI) = .ok 0 ∧
    (getNode (starTree (ascii "a" ++ [sentinel]) (ascii "a" ++ [sentinel])).nodes (some 1) >>=
      fun nd => nd.start.load .shared
        (starTree (ascii "a" ++ [sentinel]) (ascii "a" ++ [sentinel])).loopI) = .ok 2 ∧
    edgeLabel .shared (starTree (ascii "a" ++ [sentinel]) (ascii "a" ++ [sentinel])) 1 =
      .error .sliceOutOfRange ∧
    (∀ fuel, Contains .shared (fuel + 1)
      (starTree (ascii "a" ++ [sentinel]) (ascii "a" ++ [sentinel])) (ascii "a") =
        some (.error .sliceOutOfRange)) ∧
    (∀ fuel b, buildAndQuery .shared fuel (ascii "a") (ascii "a") ≠ some (.ok b)) ∧
    buildAndQuery .perIteration 7 (ascii "a") (ascii "a") = some (.ok true) := by
  have hq : buildAndQuery .shared 7 (ascii "a") (ascii "a") =
      some (.error .sliceOutOfRange) := by
    rw [buildAndQuery_of_ok (Build_a _)]; rfl
  refine ⟨Build_a _, rfl, rfl, rfl, ?_, ?_, ?_⟩
  · intro fuel
    have h1 : Contains .shared 1 (starTree (ascii "a" ++ [sentinel]) (ascii "a" ++ [sentinel]))
        (ascii "a") = some (.error .sliceOutOfRange) := rfl
    exact Contains_mono h1 (Nat.le_add_left 1 fuel)
  · intro fuel b
    exact buildAndQuery_ne_of_eq hq (by simp) fuel
  · rw [buildAndQuery_of_ok (Build_a _)]; rfl

end suffixtree
